import Mathlib

/-!
Verification of the locale-mapping and screenshot-localization pipeline of
the `pabal-resource-mcp` repository.

The TypeScript sources are shallowly embedded: JavaScript `Map` and `Set`
objects become insertion-ordered association lists, the filesystem becomes an
association list from path strings to file data, and the Gemini backend
becomes an explicit response value (or oracle of responses) passed in as an
argument.  Each section names the source file it embeds.
-/

namespace Pabal

/-! ## Insertion-ordered maps (JavaScript `Map` semantics)

A JavaScript `Map` keeps entries in insertion order with unique keys: `set` on
an existing key updates the value in place, `set` on a fresh key appends.
`JsMap` models this with a list of key-value pairs. -/

/-- An insertion-ordered association list modelling a JavaScript `Map`. -/
abbrev JsMap (α β : Type) : Type := List (α × β)

/-- JavaScript `Map.prototype.get`: the value of the first entry whose key
matches, or `none` (`undefined`). -/
def JsMap.get {α β : Type} [DecidableEq α] : JsMap α β → α → Option β
  | [], _ => none
  | e :: es, k => if e.1 = k then some e.2 else JsMap.get es k

/-- JavaScript `Map.prototype.set`: update in place when the key is present,
append a fresh entry otherwise. -/
def JsMap.set {α β : Type} [DecidableEq α] : JsMap α β → α → β → JsMap α β
  | [], k, v => [(k, v)]
  | e :: es, k, v => if e.1 = k then (k, v) :: es else e :: JsMap.set es k v

/-- JavaScript `Set.prototype.add` on an insertion-ordered list: append the
element when it is not yet present. -/
def addToSet {α : Type} [DecidableEq α] (s : List α) (x : α) : List α :=
  if x ∈ s then s else s ++ [x]

theorem JsMap.get_set_self {α β : Type} [DecidableEq α] (m : JsMap α β) (k : α) (v : β) :
    (m.set k v).get k = some v := by
  induction m with
  | nil => simp [JsMap.set, JsMap.get]
  | cons e es ih =>
    by_cases h : e.1 = k
    · simp [JsMap.set, JsMap.get, h]
    · simp [JsMap.set, JsMap.get, h, ih]

theorem JsMap.get_set_ne {α β : Type} [DecidableEq α] (m : JsMap α β) (k k' : α) (v : β)
    (h : k ≠ k') : (m.set k v).get k' = m.get k' := by
  induction m with
  | nil => simp [JsMap.set, JsMap.get, h]
  | cons e es ih =>
    by_cases he : e.1 = k
    · have : ¬ (k = k') := h
      simp [JsMap.set, JsMap.get, he, this]
    · by_cases he' : e.1 = k'
      · have hk : ¬ (k' = k) := fun hh => h hh.symm
        simp [JsMap.set, JsMap.get, he, he', hk]
      · simp [JsMap.set, JsMap.get, he, he', ih]

theorem mem_addToSet {α : Type} [DecidableEq α] (s : List α) (x y : α) :
    y ∈ addToSet s x ↔ y ∈ s ∨ y = x := by
  unfold addToSet
  by_cases h : x ∈ s
  · simp only [h, if_true]
    constructor
    · exact fun hy => Or.inl hy
    · rintro (hy | rfl)
      · exact hy
      · exact h
  · simp [h]

theorem nodup_addToSet {α : Type} [DecidableEq α] (s : List α) (x : α)
    (hs : s.Nodup) : (addToSet s x).Nodup := by
  unfold addToSet
  by_cases h : x ∈ s
  · simpa [h] using hs
  · simp [h, List.nodup_append, hs]

/-! ## Locale registry
Embeds `src/tools/aso/utils/localize-screenshots/locale-mapping.constants.ts`. -/

/-- The `GEMINI_LOCALE_GROUPS` constant: each Gemini target locale paired with
the ordered list of unified locales that receive its translated image.
`Object.entries` iterates in the declaration (insertion) order kept here. -/
def GEMINI_LOCALE_GROUPS : List (String × List String) :=
  [ ("en-US", ["en-US", "en-AU", "en-CA", "en-GB", "en-IN", "en-SG", "en-ZA"]),
    ("ar-EG", ["ar"]),
    ("de-DE", ["de-DE"]),
    ("es-MX", ["es-419", "es-ES", "es-US"]),
    ("fr-FR", ["fr-FR", "fr-CA"]),
    ("hi-IN", ["hi-IN"]),
    ("id-ID", ["id-ID"]),
    ("it-IT", ["it-IT"]),
    ("ja-JP", ["ja-JP"]),
    ("ko-KR", ["ko-KR"]),
    ("pt-BR", ["pt-BR", "pt-PT"]),
    ("ru-RU", ["ru-RU"]),
    ("ua-UA", ["uk-UA"]),
    ("vi-VN", ["vi-VN"]),
    ("zh-CN", ["zh-Hans", "zh-Hant", "zh-HK"]) ]

/-- `getGeminiLocale`: scan the groups in declaration order and return the key
of the first group whose member list contains the unified locale. -/
def getGeminiLocale (unifiedLocale : String) : Option String :=
  (GEMINI_LOCALE_GROUPS.find? (fun e => unifiedLocale ∈ e.2)).map (·.1)

/-- `getOutputLocales`: the member list stored under a Gemini locale key
(`GEMINI_LOCALE_GROUPS[geminiLocale] || []`). -/
def getOutputLocales (geminiLocale : String) : List String :=
  ((GEMINI_LOCALE_GROUPS.find? (fun e => e.1 = geminiLocale)).map (·.2)).getD []

/-- `isGeminiTranslatable`: whether `getGeminiLocale` succeeds. -/
def isGeminiTranslatable (locale : String) : Bool :=
  (getGeminiLocale locale).isSome

/-! ## Locale planner (`prepareLocalesForTranslation`) -/

/-- The mutable state threaded through `prepareLocalesForTranslation`'s loop:
the `localeMapping` map, the `geminiLocalesNeeded` set and the
`skippedLocales` array. -/
structure PrepState where
  mapping : JsMap String (List String)
  needed : List String
  skipped : List String
deriving Repr, DecidableEq

/-- One iteration of the grouping loop of `prepareLocalesForTranslation`. -/
def prepStep (st : PrepState) (locale : String) : PrepState :=
  match getGeminiLocale locale with
  | none => { st with skipped := st.skipped ++ [locale] }
  | some geminiLocale =>
    let needed := addToSet st.needed geminiLocale
    let existing := (st.mapping.get geminiLocale).getD []
    let existing := if locale ∈ existing then existing else existing ++ [locale]
    { st with needed := needed, mapping := st.mapping.set geminiLocale existing }

/-- The grouping loop, iterating over the target locales in order. -/
def prepLoop : PrepState → List String → PrepState
  | st, [] => st
  | st, l :: ls => prepLoop (prepStep st l) ls

/-- Result record of `prepareLocalesForTranslation`. -/
structure PrepResult where
  translatableLocales : List String
  localeMapping : JsMap String (List String)
  skippedLocales : List String
  groupedLocales : List String
deriving Repr, DecidableEq

/-- The pass that collects `groupedLocales`: for each map entry in insertion
order, when the member list has more than one element, append all but the
first. -/
def collectGrouped (mapping : JsMap String (List String)) : List String :=
  mapping.foldl
    (fun acc e => if 1 < e.2.length then acc ++ e.2.drop 1 else acc) []

/-- `prepareLocalesForTranslation` from
`locale-mapping.constants.ts`: filter out the primary locale, group the rest
by their Gemini representative, and report skipped and grouped locales. -/
def prepareLocalesForTranslation (locales : List String) (primaryLocale : String) :
    PrepResult :=
  let targetLocales := locales.filter (fun l => l ≠ primaryLocale)
  let st := prepLoop ⟨[], [], []⟩ targetLocales
  { translatableLocales := st.needed
    localeMapping := st.mapping
    skippedLocales := st.skipped
    groupedLocales := collectGrouped st.mapping }

/-! ### Characterization of the planner loop -/

/-- Append an element to an accumulator unless already present (the
`existing.includes(locale)` check of the loop body). -/
def dedupAdd (acc : List String) (l : String) : List String :=
  if l ∈ acc then acc else acc ++ [l]

/-- Fold `dedupAdd` over a list. -/
def accInto (acc : List String) (ls : List String) : List String :=
  ls.foldl dedupAdd acc

/-- Fold the map-entry update over a list starting from an optional existing
entry (`localeMapping.get(g) || []` then push-if-new then `set`). -/
def accOpt (acc : Option (List String)) (ls : List String) : Option (List String) :=
  ls.foldl (fun a l => some (dedupAdd (a.getD []) l)) acc

/-- The target locales that resolve to a given Gemini group key. -/
def geminiFilter (g : String) (ls : List String) : List String :=
  ls.filter (fun l => getGeminiLocale l = some g)

theorem mem_dedupAdd (acc : List String) (l x : String) :
    x ∈ dedupAdd acc l ↔ x ∈ acc ∨ x = l := by
  unfold dedupAdd
  by_cases h : l ∈ acc
  · simp only [h, if_true]
    constructor
    · exact fun hx => Or.inl hx
    · rintro (hx | rfl) <;> [exact hx; exact h]
  · simp [h]

theorem nodup_dedupAdd (acc : List String) (l : String) (h : acc.Nodup) :
    (dedupAdd acc l).Nodup := by
  unfold dedupAdd
  by_cases hl : l ∈ acc
  · simpa [hl] using h
  · simp [hl, List.nodup_append, h]

theorem dedupAdd_ne_nil (acc : List String) (l : String) : dedupAdd acc l ≠ [] := by
  unfold dedupAdd
  by_cases hl : l ∈ acc
  · simp only [hl, if_true]
    intro hnil
    rw [hnil] at hl
    exact absurd hl (List.not_mem_nil l)
  · simp [hl]

theorem dedupAdd_head? (acc : List String) (l : String) (h : acc ≠ []) :
    (dedupAdd acc l).head? = acc.head? := by
  unfold dedupAdd
  by_cases hl : l ∈ acc
  · simp [hl]
  · cases acc with
    | nil => exact absurd rfl h
    | cons a as => simp [hl]

theorem mem_accInto (ls : List String) : ∀ acc x,
    (x ∈ accInto acc ls ↔ x ∈ acc ∨ x ∈ ls) := by
  induction ls with
  | nil => intro acc x; simp [accInto]
  | cons l ls ih =>
    intro acc x
    show x ∈ accInto (dedupAdd acc l) ls ↔ _
    rw [ih]
    rw [mem_dedupAdd]
    constructor
    · rintro ((hx | rfl) | hx)
      · exact Or.inl hx
      · exact Or.inr (List.mem_cons_self _ _)
      · exact Or.inr (List.mem_cons_of_mem _ hx)
    · rintro (hx | hx)
      · exact Or.inl (Or.inl hx)
      · rcases List.mem_cons.mp hx with rfl | hx
        · exact Or.inl (Or.inr rfl)
        · exact Or.inr hx

theorem nodup_accInto (ls : List String) : ∀ acc, acc.Nodup → (accInto acc ls).Nodup := by
  induction ls with
  | nil => intro acc h; simpa [accInto] using h
  | cons l ls ih =>
    intro acc h
    exact ih _ (nodup_dedupAdd acc l h)

theorem accInto_ne_nil (ls : List String) : ∀ acc, acc ≠ [] → accInto acc ls ≠ [] := by
  induction ls with
  | nil => intro acc h; simpa [accInto] using h
  | cons l ls ih =>
    intro acc _
    exact ih _ (dedupAdd_ne_nil acc l)

theorem head?_accInto (ls : List String) : ∀ acc, acc ≠ [] →
    (accInto acc ls).head? = acc.head? := by
  induction ls with
  | nil => intro acc _; rfl
  | cons l ls ih =>
    intro acc h
    show (accInto (dedupAdd acc l) ls).head? = _
    rw [ih _ (dedupAdd_ne_nil acc l), dedupAdd_head? acc l h]

theorem accOpt_some (ls : List String) : ∀ acc,
    accOpt (some acc) ls = some (accInto acc ls) := by
  induction ls with
  | nil => intro acc; rfl
  | cons l ls ih =>
    intro acc
    show accOpt (some (dedupAdd acc l)) ls = _
    exact ih (dedupAdd acc l)

theorem accOpt_none_cons (l : String) (ls : List String) :
    accOpt none (l :: ls) = some (accInto [l] ls) := by
  show accOpt (some (dedupAdd [] l)) ls = _
  rw [accOpt_some]
  rfl

theorem prepLoop_skipped (ls : List String) : ∀ st : PrepState,
    (prepLoop st ls).skipped =
      st.skipped ++ ls.filter (fun l => (getGeminiLocale l).isNone) := by
  induction ls with
  | nil => intro st; simp [prepLoop]
  | cons l ls ih =>
    intro st
    show (prepLoop (prepStep st l) ls).skipped = _
    rw [ih]
    cases h : getGeminiLocale l with
    | none => simp [prepStep, h]
    | some g => simp [prepStep, h]

theorem prepLoop_needed_mem (ls : List String) : ∀ (st : PrepState) (g : String),
    (g ∈ (prepLoop st ls).needed ↔
      g ∈ st.needed ∨ ∃ l ∈ ls, getGeminiLocale l = some g) := by
  induction ls with
  | nil => intro st g; simp [prepLoop]
  | cons l ls ih =>
    intro st g
    show g ∈ (prepLoop (prepStep st l) ls).needed ↔ _
    rw [ih]
    cases h : getGeminiLocale l with
    | none =>
      simp only [prepStep, h]
      constructor
      · rintro (hg | hg)
        · exact Or.inl hg
        · exact Or.inr (by
            obtain ⟨x, hx, hgx⟩ := hg
            exact ⟨x, List.mem_cons_of_mem _ hx, hgx⟩)
      · rintro (hg | ⟨x, hx, hgx⟩)
        · exact Or.inl hg
        · rcases List.mem_cons.mp hx with rfl | hx
          · rw [h] at hgx; cases hgx
          · exact Or.inr ⟨x, hx, hgx⟩
    | some g' =>
      simp only [prepStep, h, mem_addToSet]
      constructor
      · rintro ((hg | rfl) | hg)
        · exact Or.inl hg
        · exact Or.inr ⟨l, List.mem_cons_self _ _, h⟩
        · obtain ⟨x, hx, hgx⟩ := hg
          exact Or.inr ⟨x, List.mem_cons_of_mem _ hx, hgx⟩
      · rintro (hg | ⟨x, hx, hgx⟩)
        · exact Or.inl (Or.inl hg)
        · rcases List.mem_cons.mp hx with rfl | hx
          · rw [h] at hgx
            exact Or.inl (Or.inr (Option.some_injective _ hgx).symm)
          · exact Or.inr ⟨x, hx, hgx⟩

theorem prepLoop_needed_nodup (ls : List String) : ∀ st : PrepState,
    st.needed.Nodup → (prepLoop st ls).needed.Nodup := by
  induction ls with
  | nil => intro st h; simpa [prepLoop] using h
  | cons l ls ih =>
    intro st h
    show (prepLoop (prepStep st l) ls).needed.Nodup
    apply ih
    cases hg : getGeminiLocale l with
    | none => simpa [prepStep, hg] using h
    | some g => simpa [prepStep, hg] using nodup_addToSet _ _ h

theorem prepLoop_mapping_get (ls : List String) : ∀ (st : PrepState) (g : String),
    (prepLoop st ls).mapping.get g =
      accOpt (st.mapping.get g) (geminiFilter g ls) := by
  induction ls with
  | nil => intro st g; simp [prepLoop, geminiFilter, accOpt]
  | cons l ls ih =>
    intro st g
    show (prepLoop (prepStep st l) ls).mapping.get g = _
    rw [ih]
    cases h : getGeminiLocale l with
    | none =>
      have hf : geminiFilter g (l :: ls) = geminiFilter g ls := by
        simp [geminiFilter, List.filter_cons, h]
      rw [hf]
      simp [prepStep, h]
    | some g' =>
      by_cases hg : g' = g
      · subst hg
        have hf : geminiFilter g' (l :: ls) = l :: geminiFilter g' ls := by
          simp [geminiFilter, List.filter_cons, h]
        rw [hf]
        have hget : (prepStep st l).mapping.get g' =
            some (dedupAdd ((st.mapping.get g').getD []) l) := by
          simp only [prepStep, h]
          rw [JsMap.get_set_self, dedupAdd]
        rw [hget]
        rw [accOpt_some]
        cases hacc : st.mapping.get g' with
        | none => simp [hacc, accOpt_none_cons, accInto, dedupAdd]
        | some acc => simp [hacc, accOpt_some, accInto]
      · have hf : geminiFilter g (l :: ls) = geminiFilter g ls := by
          have : ¬ (getGeminiLocale l = some g) := by
            rw [h]; intro hc; exact hg (Option.some_injective _ hc)
          simp [geminiFilter, List.filter_cons, this]
        rw [hf]
        have hget : (prepStep st l).mapping.get g = st.mapping.get g := by
          simp only [prepStep, h]
          exact JsMap.get_set_ne _ _ _ _ hg
        rw [hget]

/-- Key uniqueness invariant of a `JsMap` (JavaScript maps never hold two
entries with the same key). -/
def JsMap.KeysNodup {α β : Type} (m : JsMap α β) : Prop :=
  (m.map Prod.fst).Nodup

theorem JsMap.keysNodup_set {α β : Type} [DecidableEq α] (m : JsMap α β) (k : α) (v : β)
    (h : m.KeysNodup) : (m.set k v).KeysNodup := by
  induction m with
  | nil => simp [JsMap.set, JsMap.KeysNodup]
  | cons e es ih =>
    unfold JsMap.KeysNodup at h
    simp only [List.map_cons, List.nodup_cons] at h
    by_cases he : e.1 = k
    · unfold JsMap.KeysNodup
      simp only [JsMap.set, he, if_true, List.map_cons, List.nodup_cons]
      exact ⟨by rw [← he]; exact h.1, h.2⟩
    · unfold JsMap.KeysNodup
      simp only [JsMap.set, he, if_false, List.map_cons, List.nodup_cons]
      refine ⟨?_, ih h.2⟩
      intro hc
      have : ∀ x ∈ JsMap.set es k v, x.1 ∈ es.map Prod.fst ∨ x.1 = k := by
        clear hc ih h
        induction es with
        | nil =>
          intro x hx
          simp only [JsMap.set, List.mem_singleton] at hx
          subst hx
          exact Or.inr rfl
        | cons e' es' ih' =>
          intro x hx
          by_cases he' : e'.1 = k
          · simp only [JsMap.set, he', if_true] at hx
            rcases List.mem_cons.mp hx with rfl | hx
            · exact Or.inr rfl
            · refine Or.inl ?_
              simp only [List.map_cons, List.mem_cons]
              exact Or.inr (List.mem_map.mpr ⟨x, hx, rfl⟩)
          · simp only [JsMap.set, he', if_false] at hx
            rcases List.mem_cons.mp hx with rfl | hx
            · exact Or.inl (by simp)
            · rcases ih' x hx with hx' | hx'
              · exact Or.inl (by
                  simp only [List.map_cons, List.mem_cons]
                  exact Or.inr hx')
              · exact Or.inr hx'
      obtain ⟨x, hx, hx1⟩ := List.mem_map.mp hc
      rcases this x hx with hx' | hx'
      · rw [hx1] at hx'; exact h.1 hx'
      · rw [hx1] at hx'; exact he hx'

theorem JsMap.get_of_mem {α β : Type} [DecidableEq α] (m : JsMap α β) (e : α × β)
    (hm : m.KeysNodup) (he : e ∈ m) : m.get e.1 = some e.2 := by
  induction m with
  | nil => cases he
  | cons e' es ih =>
    unfold JsMap.KeysNodup at hm
    simp only [List.map_cons, List.nodup_cons] at hm
    rcases List.mem_cons.mp he with rfl | he
    · simp [JsMap.get]
    · have hne : e'.1 ≠ e.1 := by
        intro hc
        exact hm.1 (by rw [hc]; exact List.mem_map.mpr ⟨e, he, rfl⟩)
      simp only [JsMap.get, if_neg hne]
      exact ih hm.2 he

theorem prepLoop_mapping_keysNodup (ls : List String) : ∀ st : PrepState,
    st.mapping.KeysNodup → (prepLoop st ls).mapping.KeysNodup := by
  induction ls with
  | nil => intro st h; simpa [prepLoop] using h
  | cons l ls ih =>
    intro st h
    show (prepLoop (prepStep st l) ls).mapping.KeysNodup
    apply ih
    cases hg : getGeminiLocale l with
    | none => simpa [prepStep, hg] using h
    | some g => simpa [prepStep, hg] using JsMap.keysNodup_set _ _ _ h

theorem mem_collectGrouped (m : JsMap String (List String)) (x : String)
    (hx : x ∈ collectGrouped m) : ∃ e ∈ m, x ∈ e.2.drop 1 := by
  unfold collectGrouped at hx
  suffices h : ∀ (acc : List String),
      x ∈ m.foldl (fun acc e => if 1 < e.2.length then acc ++ e.2.drop 1 else acc) acc →
      x ∈ acc ∨ ∃ e ∈ m, x ∈ e.2.drop 1 by
    rcases h [] hx with hc | hc
    · cases hc
    · exact hc
  clear hx
  induction m with
  | nil => intro acc hx; exact Or.inl hx
  | cons e es ih =>
    intro acc hx
    simp only [List.foldl_cons] at hx
    rcases ih _ hx with hc | ⟨e', he', hx'⟩
    · by_cases hl : 1 < e.2.length
      · simp only [hl, if_true] at hc
        rcases List.mem_append.mp hc with hc' | hc'
        · exact Or.inl hc'
        · exact Or.inr ⟨e, List.mem_cons_self _ _, hc'⟩
      · simp only [hl, if_false] at hc
        exact Or.inl hc
    · exact Or.inr ⟨e', List.mem_cons_of_mem _ he', hx'⟩

/-! ### Planner output characterizations -/

theorem mem_getD_accOpt_none (xs : List String) (l : String) :
    l ∈ (accOpt none xs).getD [] ↔ l ∈ xs := by
  cases xs with
  | nil => simp [accOpt]
  | cons x tl =>
    rw [accOpt_none_cons]
    show l ∈ accInto [x] tl ↔ _
    rw [mem_accInto]
    simp [List.mem_cons]

theorem isSome_accOpt_none (xs : List String) :
    (accOpt none xs).isSome ↔ xs ≠ [] := by
  cases xs with
  | nil => simp [accOpt]
  | cons x tl => simp [accOpt_none_cons]

theorem prep_skipped_char (locales : List String) (primaryLocale l : String) :
    l ∈ (prepareLocalesForTranslation locales primaryLocale).skippedLocales ↔
      l ∈ locales ∧ l ≠ primaryLocale ∧ getGeminiLocale l = none := by
  show l ∈ (prepLoop ⟨[], [], []⟩
      (locales.filter (fun l => l ≠ primaryLocale))).skipped ↔ _
  rw [prepLoop_skipped]
  simp only [List.nil_append]
  constructor
  · intro h
    rcases List.mem_filter.mp h with ⟨h1, h2⟩
    rcases List.mem_filter.mp h1 with ⟨hl, hne⟩
    exact ⟨hl, by simpa using hne, by simpa [Option.isNone_iff_eq_none] using h2⟩
  · rintro ⟨hl, hne, hnone⟩
    exact List.mem_filter.mpr ⟨List.mem_filter.mpr ⟨hl, by simpa using hne⟩,
      by simp [hnone]⟩

theorem prep_targets_char (locales : List String) (primaryLocale g : String) :
    g ∈ (prepareLocalesForTranslation locales primaryLocale).translatableLocales ↔
      ∃ l, l ∈ locales ∧ l ≠ primaryLocale ∧ getGeminiLocale l = some g := by
  show g ∈ (prepLoop ⟨[], [], []⟩
      (locales.filter (fun l => l ≠ primaryLocale))).needed ↔ _
  rw [prepLoop_needed_mem]
  simp only [List.not_mem_nil, false_or]
  constructor
  · rintro ⟨l, hl, hg⟩
    rcases List.mem_filter.mp hl with ⟨hmem, hne⟩
    exact ⟨l, hmem, by simpa using hne, hg⟩
  · rintro ⟨l, hmem, hne, hg⟩
    exact ⟨l, List.mem_filter.mpr ⟨hmem, by simpa using hne⟩, hg⟩

theorem prep_mapping_get_char (locales : List String) (primaryLocale g : String) :
    (prepareLocalesForTranslation locales primaryLocale).localeMapping.get g =
      accOpt none (geminiFilter g (locales.filter (fun l => l ≠ primaryLocale))) := by
  unfold prepareLocalesForTranslation
  rw [prepLoop_mapping_get]
  rfl

theorem prep_mapping_mem_char (locales : List String) (primaryLocale g l : String) :
    l ∈ ((prepareLocalesForTranslation locales primaryLocale).localeMapping.get g).getD [] ↔
      l ∈ locales ∧ l ≠ primaryLocale ∧ getGeminiLocale l = some g := by
  rw [prep_mapping_get_char, mem_getD_accOpt_none]
  unfold geminiFilter
  constructor
  · intro h
    rcases List.mem_filter.mp h with ⟨h1, h2⟩
    rcases List.mem_filter.mp h1 with ⟨hl, hne⟩
    exact ⟨hl, by simpa using hne, by simpa using h2⟩
  · rintro ⟨hl, hne, hg⟩
    exact List.mem_filter.mpr ⟨List.mem_filter.mpr ⟨hl, by simpa using hne⟩, by simpa using hg⟩

theorem prep_mapping_isSome_char (locales : List String) (primaryLocale g : String) :
    ((prepareLocalesForTranslation locales primaryLocale).localeMapping.get g).isSome ↔
      ∃ l, l ∈ locales ∧ l ≠ primaryLocale ∧ getGeminiLocale l = some g := by
  rw [prep_mapping_get_char, isSome_accOpt_none]
  unfold geminiFilter
  constructor
  · intro hne
    obtain ⟨l, hl⟩ := List.exists_mem_of_ne_nil _ hne
    rcases List.mem_filter.mp hl with ⟨h1, h2⟩
    rcases List.mem_filter.mp h1 with ⟨hmem, hneq⟩
    exact ⟨l, hmem, by simpa using hneq, by simpa using h2⟩
  · rintro ⟨l, hmem, hneq, hg⟩
    intro hnil
    have hl : l ∈ List.filter (fun l => decide (getGeminiLocale l = some g))
        (List.filter (fun l => decide (l ≠ primaryLocale)) locales) :=
      List.mem_filter.mpr ⟨List.mem_filter.mpr ⟨hmem, by simpa using hneq⟩,
        by simpa using hg⟩
    rw [hnil] at hl
    exact absurd hl (List.not_mem_nil l)

theorem prep_mapping_some_props (locales : List String) (primaryLocale g : String)
    (ml : List String)
    (h : (prepareLocalesForTranslation locales primaryLocale).localeMapping.get g = some ml) :
    ml ≠ [] ∧ ml.Nodup ∧
      ml.head? = (geminiFilter g (locales.filter (fun l => l ≠ primaryLocale))).head? := by
  rw [prep_mapping_get_char] at h
  cases hxs : geminiFilter g (locales.filter (fun l => l ≠ primaryLocale)) with
  | nil => rw [hxs] at h; cases h
  | cons x tl =>
    rw [hxs, accOpt_none_cons] at h
    have hml : ml = accInto [x] tl := (Option.some_injective _ h).symm
    subst hml
    refine ⟨accInto_ne_nil tl [x] (by simp), nodup_accInto tl [x] (by simp), ?_⟩
    rw [head?_accInto tl [x] (by simp)]
    rfl

theorem prep_grouped_sub (locales : List String) (primaryLocale x : String)
    (hx : x ∈ (prepareLocalesForTranslation locales primaryLocale).groupedLocales) :
    x ∈ locales ∧ x ≠ primaryLocale := by
  have hkn : (prepareLocalesForTranslation locales primaryLocale).localeMapping.KeysNodup := by
    unfold prepareLocalesForTranslation
    exact prepLoop_mapping_keysNodup _ _ (by simp [JsMap.KeysNodup])
  obtain ⟨e, he, hxe⟩ := mem_collectGrouped _ _ hx
  have hget := JsMap.get_of_mem _ e hkn he
  have hxl : x ∈ ((prepareLocalesForTranslation locales primaryLocale).localeMapping.get e.1).getD [] := by
    rw [hget]
    exact List.mem_of_mem_drop hxe
  rcases (prep_mapping_mem_char locales primaryLocale e.1 x).mp hxl with ⟨h1, h2, _⟩
  exact ⟨h1, h2⟩

/-- C1: in the static `GEMINI_LOCALE_GROUPS` table every unified locale string
appears in the member list of at most one group, and whenever
`getGeminiLocale L` returns a group key `g`, `getOutputLocales g` contains
`L`. -/
theorem c1_translation_groups_disjoint_and_membership :
    (∀ e1 ∈ GEMINI_LOCALE_GROUPS, ∀ e2 ∈ GEMINI_LOCALE_GROUPS, ∀ L : String,
        L ∈ e1.2 → L ∈ e2.2 → e1.1 = e2.1) ∧
    (∀ L g : String, getGeminiLocale L = some g → L ∈ getOutputLocales g) := by
  constructor
  · decide
  · intro L g h
    unfold getGeminiLocale at h
    cases hf : GEMINI_LOCALE_GROUPS.find? (fun e => decide (L ∈ e.2)) with
    | none => rw [hf] at h; cases h
    | some e =>
      rw [hf] at h
      have hg : e.1 = g := Option.some_injective _ h
      have hLe : L ∈ e.2 := by
        have := List.find?_some hf
        simpa using this
      have hmem : e ∈ GEMINI_LOCALE_GROUPS := List.mem_of_find?_eq_some hf
      have hout : ∀ e' ∈ GEMINI_LOCALE_GROUPS, getOutputLocales e'.1 = e'.2 := by decide
      rw [← hg, hout e hmem]
      exact hLe

/-- Witness for C1 at the concrete locale `en-GB`. -/
theorem c1_witness : "en-GB" ∈ getOutputLocales "en-US" :=
  c1_translation_groups_disjoint_and_membership.2 "en-GB" "en-US" (by decide)

/-- Counterexample to C8 as stated: with candidate list
`["es-ES", "es-419"]` both Spanish locales fall into the `es-MX` group, whose
registry member order is `["es-419", "es-ES", "es-US"]`; the planner
nevertheless lists `es-ES` first (input order), and permuting the input list
changes the produced `translatableLocales` list. -/
theorem c8_counterexample :
    (prepareLocalesForTranslation ["es-ES", "es-419"] "ko-KR").localeMapping.get "es-MX"
        = some ["es-ES", "es-419"] ∧
    getOutputLocales "es-MX" = ["es-419", "es-ES", "es-US"] ∧
    ("es-ES" : String) ≠ "es-419" ∧
    (prepareLocalesForTranslation ["es-ES", "fr-FR"] "ko-KR").translatableLocales
        ≠ (prepareLocalesForTranslation ["fr-FR", "es-ES"] "ko-KR").translatableLocales := by
  refine ⟨by decide, by decide, by decide, by decide⟩

/-- C8 (amended): planning is deterministic (identical inputs give identical
results); permuting the candidate list preserves the skipped set, the target
set and each group's member set; and the first member of each group's mapped
list is the earliest candidate in input order that resolves to that group —
not the registry's declared member order. -/
theorem c8_planning_order_amended (locales locales' : List String)
    (primaryLocale : String) (hperm : locales.Perm locales') :
    prepareLocalesForTranslation locales primaryLocale
        = prepareLocalesForTranslation locales primaryLocale ∧
    (∀ l, l ∈ (prepareLocalesForTranslation locales primaryLocale).skippedLocales ↔
        l ∈ (prepareLocalesForTranslation locales' primaryLocale).skippedLocales) ∧
    (∀ g, g ∈ (prepareLocalesForTranslation locales primaryLocale).translatableLocales ↔
        g ∈ (prepareLocalesForTranslation locales' primaryLocale).translatableLocales) ∧
    (∀ g l,
        l ∈ ((prepareLocalesForTranslation locales primaryLocale).localeMapping.get g).getD [] ↔
        l ∈ ((prepareLocalesForTranslation locales' primaryLocale).localeMapping.get g).getD []) ∧
    (∀ g ml,
        (prepareLocalesForTranslation locales primaryLocale).localeMapping.get g = some ml →
        ml.head? =
          (geminiFilter g (locales.filter (fun l => l ≠ primaryLocale))).head?) := by
  refine ⟨rfl, ?_, ?_, ?_, ?_⟩
  · intro l
    rw [prep_skipped_char, prep_skipped_char]
    exact and_congr_left (fun _ => ⟨fun h => hperm.mem_iff.mp h, fun h => hperm.mem_iff.mpr h⟩)
  · intro g
    rw [prep_targets_char, prep_targets_char]
    constructor
    · rintro ⟨l, hl, h2, h3⟩; exact ⟨l, hperm.mem_iff.mp hl, h2, h3⟩
    · rintro ⟨l, hl, h2, h3⟩; exact ⟨l, hperm.mem_iff.mpr hl, h2, h3⟩
  · intro g l
    rw [prep_mapping_mem_char, prep_mapping_mem_char]
    exact and_congr_left (fun _ => ⟨fun h => hperm.mem_iff.mp h, fun h => hperm.mem_iff.mpr h⟩)
  · intro g ml h
    exact (prep_mapping_some_props locales primaryLocale g ml h).2.2

/-- Witness for C8 (amended) at concrete permuted candidate lists. -/
theorem c8_witness :
    ("fr-FR" ∈ (prepareLocalesForTranslation ["es-ES", "fr-FR"] "ko-KR").translatableLocales ↔
      "fr-FR" ∈ (prepareLocalesForTranslation ["fr-FR", "es-ES"] "ko-KR").translatableLocales) :=
  (c8_planning_order_amended ["es-ES", "fr-FR"] ["fr-FR", "es-ES"] "ko-KR"
    (by decide)).2.2.1 "fr-FR"

/-- C10: the planner's outputs partition the candidates: a group key is a
target iff it owns a mapping entry; every mapped member list is non-empty and
duplicate-free; every candidate other than the primary locale lands either in
`skippedLocales` or in exactly one member list (never both); and the primary
locale appears in no member list, not in `skippedLocales`, and not in
`groupedLocales`. -/
theorem c10_planner_partition (locales : List String) (primaryLocale : String) :
    (∀ g, g ∈ (prepareLocalesForTranslation locales primaryLocale).translatableLocales ↔
        ((prepareLocalesForTranslation locales primaryLocale).localeMapping.get g).isSome) ∧
    (∀ g ml, (prepareLocalesForTranslation locales primaryLocale).localeMapping.get g = some ml →
        ml ≠ [] ∧ ml.Nodup) ∧
    (∀ l, l ∈ locales → l ≠ primaryLocale →
        ((l ∈ (prepareLocalesForTranslation locales primaryLocale).skippedLocales ∧
            ∀ g, l ∉ ((prepareLocalesForTranslation locales primaryLocale).localeMapping.get g).getD []) ∨
         (l ∉ (prepareLocalesForTranslation locales primaryLocale).skippedLocales ∧
            ∃ g, l ∈ ((prepareLocalesForTranslation locales primaryLocale).localeMapping.get g).getD [] ∧
              ∀ g', l ∈ ((prepareLocalesForTranslation locales primaryLocale).localeMapping.get g').getD [] → g' = g))) ∧
    (∀ g, primaryLocale ∉ ((prepareLocalesForTranslation locales primaryLocale).localeMapping.get g).getD []) ∧
    primaryLocale ∉ (prepareLocalesForTranslation locales primaryLocale).skippedLocales ∧
    primaryLocale ∉ (prepareLocalesForTranslation locales primaryLocale).groupedLocales := by
  refine ⟨?_, ?_, ?_, ?_, ?_, ?_⟩
  · intro g
    rw [prep_targets_char, prep_mapping_isSome_char]
  · intro g ml h
    have := prep_mapping_some_props locales primaryLocale g ml h
    exact ⟨this.1, this.2.1⟩
  · intro l hl hne
    cases hg : getGeminiLocale l with
    | none =>
      left
      refine ⟨(prep_skipped_char locales primaryLocale l).mpr ⟨hl, hne, hg⟩, ?_⟩
      intro g hmem
      rcases (prep_mapping_mem_char locales primaryLocale g l).mp hmem with ⟨_, _, hsome⟩
      rw [hg] at hsome
      cases hsome
    | some g =>
      right
      constructor
      · intro hsk
        rcases (prep_skipped_char locales primaryLocale l).mp hsk with ⟨_, _, hnone⟩
        rw [hg] at hnone
        cases hnone
      · refine ⟨g, (prep_mapping_mem_char locales primaryLocale g l).mpr ⟨hl, hne, hg⟩, ?_⟩
        intro g' hmem
        rcases (prep_mapping_mem_char locales primaryLocale g' l).mp hmem with ⟨_, _, hg'⟩
        rw [hg] at hg'
        exact (Option.some_injective _ hg').symm
  · intro g hmem
    rcases (prep_mapping_mem_char locales primaryLocale g primaryLocale).mp hmem
      with ⟨_, hne, _⟩
    exact hne rfl
  · intro hsk
    rcases (prep_skipped_char locales primaryLocale primaryLocale).mp hsk with ⟨_, hne, _⟩
    exact hne rfl
  · intro hgr
    exact (prep_grouped_sub locales primaryLocale primaryLocale hgr).2 rfl

/-- Witness for C10 at a concrete candidate list. -/
theorem c10_witness :
    ("es-MX" ∈ (prepareLocalesForTranslation ["es-ES", "xx-YY"] "en-US").translatableLocales ↔
      ((prepareLocalesForTranslation ["es-ES", "xx-YY"] "en-US").localeMapping.get "es-MX").isSome) :=
  (c10_planner_partition ["es-ES", "xx-YY"] "en-US").1 "es-MX"

/-! ## Screenshot inventory
Embeds `scanLocaleScreenshots` from
`src/tools/screenshots/utils/scan-screenshots.util.ts`.  The filesystem is
modelled by a record carrying the existence of the locale directory, and for
each device directory its existence and its `readdirSync` listing. -/

/-- The `"phone" | "tablet"` union type. -/
inductive DeviceType where
  | phone
  | tablet
deriving Repr, DecidableEq

/-- String form of a device type, as used in directory paths. -/
def DeviceType.str : DeviceType → String
  | .phone => "phone"
  | .tablet => "tablet"

/-- The `ScreenshotInfo` interface. -/
structure ScreenshotInfo where
  type : DeviceType
  filename : String
  fullPath : String
deriving Repr, DecidableEq

/-- A device directory as seen by `fs`: whether it exists, and its listing. -/
structure DeviceDir where
  dirExists : Bool
  files : List String
deriving Repr, DecidableEq

/-- The part of the filesystem `scanLocaleScreenshots` consults for one
locale. -/
structure LocaleDirFs where
  localeDirExists : Bool
  phone : DeviceDir
  tablet : DeviceDir
deriving Repr, DecidableEq

/-- Suffix test on character lists. -/
def endsWithChars (cs sfx : List Char) : Bool :=
  (cs.reverse.take sfx.length) == sfx.reverse

/-- The extension allow-list test `/\.(png|jpg|jpeg|webp)$/i`: the
case-insensitive regex holds exactly when the lower-cased name ends with one
of the four extensions. -/
def extAllowed (file : String) : Bool :=
  let l := file.data.map Char.toLower
  endsWithChars l ".png".data || endsWithChars l ".jpg".data ||
    endsWithChars l ".jpeg".data || endsWithChars l ".webp".data

/-- The first maximal digit run of a character list, if any
(JavaScript `str.match(/\d+/)?.[0]`). -/
def firstDigitRun : List Char → Option (List Char)
  | [] => none
  | c :: cs => if c.isDigit then some (c :: cs.takeWhile Char.isDigit) else firstDigitRun cs

/-- Decimal value of a digit run (`parseInt` on a digit-only string). -/
def digitsToNat (cs : List Char) : Nat :=
  cs.foldl (fun n c => n * 10 + (c.toNat - 48)) 0

/-- The sort key of the comparator
`parseInt(a.match(/\d+/)?.[0] || "0")`: the value of the first digit run in
the filename, `0` when there is none. -/
def scanSortKey (f : String) : Nat :=
  match firstDigitRun f.data with
  | none => 0
  | some run => digitsToNat run

/-- Stable ascending insertion by `scanSortKey` (inserts after equal keys). -/
def insertAsc (x : String) : List String → List String
  | [] => [x]
  | y :: ys => if scanSortKey x < scanSortKey y then x :: y :: ys else y :: insertAsc x ys

/-- Stable ascending sort by `scanSortKey`, modelling
`files.sort((a, b) => numA - numB)` (ECMAScript sort is stable and the
comparator is a pure function of this key, so the result is the unique stable
ascending reordering). -/
def sortByNum (files : List String) : List String :=
  files.foldl (fun acc f => insertAsc f acc) []

/-- Scan of one device directory: skip when absent, else filter by extension,
sort numerically and attach paths. -/
def scanDevice (localeDir : String) (t : DeviceType) (d : DeviceDir) : List ScreenshotInfo :=
  if d.dirExists then
    (sortByNum (d.files.filter extAllowed)).map
      (fun f => ⟨t, f, localeDir ++ "/" ++ t.str ++ "/" ++ f⟩)
  else []

/-- `scanLocaleScreenshots`: empty when the locale directory is absent, else
the phone scan followed by the tablet scan. -/
def scanLocaleScreenshots (localeDir : String) (fs : LocaleDirFs) : List ScreenshotInfo :=
  if fs.localeDirExists then
    scanDevice localeDir .phone fs.phone ++ scanDevice localeDir .tablet fs.tablet
  else []

/-- Name shape demanded by the specification: a positive integer, then a dot,
then an allow-listed extension.  Stated from the spec's words to compare with
what the code actually filters. -/
def specScreenshotNameOk (f : String) : Bool :=
  let ds := f.data.takeWhile Char.isDigit
  let rest := (f.data.drop ds.length).map Char.toLower
  decide (ds ≠ []) && decide (0 < digitsToNat ds) &&
    (rest == ".png".data || rest == ".jpg".data ||
      rest == ".jpeg".data || rest == ".webp".data)

theorem mem_insertAsc (x y : String) (l : List String) :
    y ∈ insertAsc x l ↔ y = x ∨ y ∈ l := by
  induction l with
  | nil => simp [insertAsc]
  | cons z zs ih =>
    unfold insertAsc
    by_cases h : scanSortKey x < scanSortKey z
    · simp [h, List.mem_cons]
    · simp only [h, if_false, List.mem_cons, ih]
      tauto

theorem sorted_insertAsc (x : String) (l : List String)
    (h : l.Pairwise (fun a b => scanSortKey a ≤ scanSortKey b)) :
    (insertAsc x l).Pairwise (fun a b => scanSortKey a ≤ scanSortKey b) := by
  induction l with
  | nil => simp [insertAsc]
  | cons z zs ih =>
    rcases List.pairwise_cons.mp h with ⟨hz, hzs⟩
    unfold insertAsc
    by_cases hlt : scanSortKey x < scanSortKey z
    · simp only [hlt, if_true]
      refine List.pairwise_cons.mpr ⟨?_, h⟩
      intro b hb
      rcases List.mem_cons.mp hb with rfl | hb
      · exact Nat.le_of_lt hlt
      · exact Nat.le_trans (Nat.le_of_lt hlt) (hz b hb)
    · simp only [hlt, if_false]
      refine List.pairwise_cons.mpr ⟨?_, ih hzs⟩
      intro b hb
      rcases (mem_insertAsc x b zs).mp hb with rfl | hb
      · exact Nat.le_of_not_lt hlt
      · exact hz b hb

theorem mem_sortByNum (files : List String) (y : String) :
    y ∈ sortByNum files ↔ y ∈ files := by
  suffices h : ∀ acc, (y ∈ files.foldl (fun acc f => insertAsc f acc) acc ↔
      y ∈ acc ∨ y ∈ files) by
    rw [sortByNum, h []]
    simp
  induction files with
  | nil => intro acc; simp
  | cons f fs ih =>
    intro acc
    simp only [List.foldl_cons]
    rw [ih (insertAsc f acc), mem_insertAsc]
    constructor
    · rintro ((rfl | h) | h)
      · exact Or.inr (List.mem_cons_self _ _)
      · exact Or.inl h
      · exact Or.inr (List.mem_cons_of_mem _ h)
    · rintro (h | h)
      · exact Or.inl (Or.inr h)
      · rcases List.mem_cons.mp h with rfl | h
        · exact Or.inl (Or.inl rfl)
        · exact Or.inr h

theorem sorted_sortByNum (files : List String) :
    (sortByNum files).Pairwise (fun a b => scanSortKey a ≤ scanSortKey b) := by
  suffices h : ∀ acc, acc.Pairwise (fun a b => scanSortKey a ≤ scanSortKey b) →
      (files.foldl (fun acc f => insertAsc f acc) acc).Pairwise
        (fun a b => scanSortKey a ≤ scanSortKey b) by
    exact h [] (by simp)
  induction files with
  | nil => intro acc hacc; simpa using hacc
  | cons f fs ih =>
    intro acc hacc
    simp only [List.foldl_cons]
    exact ih _ (sorted_insertAsc f acc hacc)

theorem mem_scanDevice (localeDir : String) (t : DeviceType) (d : DeviceDir)
    (i : ScreenshotInfo) :
    i ∈ scanDevice localeDir t d ↔
      d.dirExists ∧ i.filename ∈ d.files ∧ extAllowed i.filename ∧
        i = ⟨t, i.filename, localeDir ++ "/" ++ t.str ++ "/" ++ i.filename⟩ := by
  unfold scanDevice
  by_cases hd : d.dirExists
  · simp only [hd, if_true, List.mem_map, true_and]
    constructor
    · rintro ⟨f, hf, rfl⟩
      rcases List.mem_filter.mp ((mem_sortByNum _ f).mp hf) with ⟨hmem, hext⟩
      exact ⟨hmem, hext, rfl⟩
    · rintro ⟨hmem, hext, hi⟩
      refine ⟨i.filename, (mem_sortByNum _ _).mpr (List.mem_filter.mpr ⟨hmem, hext⟩), hi.symm⟩
  · simp [hd]

theorem scanDevice_types (localeDir : String) (t : DeviceType) (d : DeviceDir)
    (i : ScreenshotInfo) (hi : i ∈ scanDevice localeDir t d) : i.type = t := by
  rcases (mem_scanDevice localeDir t d i).mp hi with ⟨_, _, _, heq⟩
  rw [heq]

theorem scanDevice_pairwise (localeDir : String) (t : DeviceType) (d : DeviceDir) :
    (scanDevice localeDir t d).Pairwise
      (fun a b => a.type = b.type ∧ scanSortKey a.filename ≤ scanSortKey b.filename) := by
  unfold scanDevice
  by_cases hd : d.dirExists
  · simp only [hd, if_true]
    rw [List.pairwise_map]
    exact (sorted_sortByNum _).imp (fun h => ⟨rfl, h⟩)
  · simp [hd]

/-- Counterexample to C9 as stated: a file named `foo.png` has no leading
positive integer, yet the scan includes it (the code filters on the extension
alone). -/
theorem c9_counterexample :
    (scanLocaleScreenshots "d"
        ⟨true, ⟨true, ["foo.png"]⟩, ⟨false, []⟩⟩).map (fun i => i.filename)
      = ["foo.png"] ∧
    specScreenshotNameOk "foo.png" = false := by
  constructor
  · rfl
  · rfl

/-- C9 (amended): `scanLocaleScreenshots` returns the empty list when the
locale directory is absent; otherwise it includes, per device directory that
exists, exactly the listed files whose lower-cased name ends with one of
`.png`, `.jpg`, `.jpeg`, `.webp` (regardless of any leading integer); the
result lists every phone entry before every tablet entry, and within one
device type filenames are in ascending order of the value of the first digit
run in the name (`0` when there is none). -/
theorem c9_scan_amended (localeDir : String) (fs : LocaleDirFs) :
    (fs.localeDirExists = false → scanLocaleScreenshots localeDir fs = []) ∧
    (fs.localeDirExists = true → ∀ f : String,
      ((∃ i ∈ scanLocaleScreenshots localeDir fs,
          i.type = DeviceType.phone ∧ i.filename = f) ↔
        fs.phone.dirExists ∧ f ∈ fs.phone.files ∧ extAllowed f) ∧
      ((∃ i ∈ scanLocaleScreenshots localeDir fs,
          i.type = DeviceType.tablet ∧ i.filename = f) ↔
        fs.tablet.dirExists ∧ f ∈ fs.tablet.files ∧ extAllowed f)) ∧
    (scanLocaleScreenshots localeDir fs).Pairwise
      (fun a b => (a.type = DeviceType.phone ∧ b.type = DeviceType.tablet) ∨
        (a.type = b.type ∧ scanSortKey a.filename ≤ scanSortKey b.filename)) := by
  refine ⟨?_, ?_, ?_⟩
  · intro h
    unfold scanLocaleScreenshots
    simp [h]
  · intro h f
    have hscan : scanLocaleScreenshots localeDir fs =
        scanDevice localeDir .phone fs.phone ++ scanDevice localeDir .tablet fs.tablet := by
      unfold scanLocaleScreenshots
      simp [h]
    rw [hscan]
    constructor
    · constructor
      · rintro ⟨i, hi, htype, rfl⟩
        rcases List.mem_append.mp hi with hi' | hi'
        · rcases (mem_scanDevice _ _ _ i).mp hi' with ⟨h1, h2, h3, _⟩
          exact ⟨h1, h2, h3⟩
        · have := scanDevice_types _ _ _ i hi'
          rw [htype] at this
          cases this
      · rintro ⟨h1, h2, h3⟩
        refine ⟨⟨.phone, f, localeDir ++ "/" ++ DeviceType.str .phone ++ "/" ++ f⟩,
          List.mem_append.mpr (Or.inl ?_), rfl, rfl⟩
        exact (mem_scanDevice _ _ _ _).mpr ⟨h1, h2, h3, rfl⟩
    · constructor
      · rintro ⟨i, hi, htype, rfl⟩
        rcases List.mem_append.mp hi with hi' | hi'
        · have := scanDevice_types _ _ _ i hi'
          rw [htype] at this
          cases this
        · rcases (mem_scanDevice _ _ _ i).mp hi' with ⟨h1, h2, h3, _⟩
          exact ⟨h1, h2, h3⟩
      · rintro ⟨h1, h2, h3⟩
        refine ⟨⟨.tablet, f, localeDir ++ "/" ++ DeviceType.str .tablet ++ "/" ++ f⟩,
          List.mem_append.mpr (Or.inr ?_), rfl, rfl⟩
        exact (mem_scanDevice _ _ _ _).mpr ⟨h1, h2, h3, rfl⟩
  · unfold scanLocaleScreenshots
    by_cases h : fs.localeDirExists
    · simp only [h, if_true]
      rw [List.pairwise_append]
      refine ⟨?_, ?_, ?_⟩
      · exact (scanDevice_pairwise localeDir .phone fs.phone).imp (fun hk => Or.inr hk)
      · exact (scanDevice_pairwise localeDir .tablet fs.tablet).imp (fun hk => Or.inr hk)
      · intro a ha b hb
        exact Or.inl ⟨scanDevice_types _ _ _ a ha, scanDevice_types _ _ _ b hb⟩
    · simp [h]

/-- Witness for C9 (amended) at a concrete filesystem. -/
theorem c9_witness :
    ((∃ i ∈ scanLocaleScreenshots "d"
          ⟨true, ⟨true, ["2.png", "1.png", "notes.txt"]⟩, ⟨false, []⟩⟩,
        i.type = DeviceType.phone ∧ i.filename = "1.png") ↔
      (true = true ∧ "1.png" ∈ ["2.png", "1.png", "notes.txt"] ∧ extAllowed "1.png")) :=
  ((c9_scan_amended "d" ⟨true, ⟨true, ["2.png", "1.png", "notes.txt"]⟩, ⟨false, []⟩⟩).2.1
    rfl "1.png").1

/-! ## Translation orchestrator
Embeds `buildTranslationTasks` from
`src/tools/screenshots/translate-screenshots.ts` and `translateImage` /
`translateImagesWithProgress` from
`src/tools/screenshots/utils/gemini-image-translator.util.ts`.  The
filesystem is an insertion-ordered map from path to file bytes; the Gemini
backend is an explicit response value (a thrown error is an `Except.error`
arising from the backend call). -/

/-- The `TranslationTask` interface of `translate-screenshots.ts`. -/
structure TranslationTask where
  sourcePath : String
  sourceLocale : String
  targetLocale : String
  outputPaths : List String
  deviceType : DeviceType
  filename : String
deriving Repr, DecidableEq

/-- `fs.existsSync` on the path map. -/
def fsExists (fs : JsMap String String) (p : String) : Bool :=
  (fs.get p).isSome

/-- Output path `path.join(screenshotsDir, locale, screenshot.type, "raw",
screenshot.filename)`. -/
def rawOutputPath (screenshotsDir locale : String) (t : DeviceType) (filename : String) :
    String :=
  screenshotsDir ++ "/" ++ locale ++ "/" ++ t.str ++ "/raw/" ++ filename

/-- The inner loop of `buildTranslationTasks`: one candidate output path per
member locale, keeping a path only when `!skipExisting ||
!fs.existsSync(outputPath)`. -/
def taskOutputPaths (screenshotsDir : String) (outputLocales : List String)
    (s : ScreenshotInfo) (skipExisting : Bool) (fs : JsMap String String) : List String :=
  (outputLocales.map (fun locale => rawOutputPath screenshotsDir locale s.type s.filename)).filter
    (fun p => !skipExisting || !(fsExists fs p))

/-- `buildTranslationTasks`: for each target group key and each screenshot,
build the filtered output-path list and emit a task unless it is empty. -/
def buildTranslationTasks (screenshotsDir : String) (screenshots : List ScreenshotInfo)
    (primaryLocale : String) (targetLocales : List String)
    (localeMapping : JsMap String (List String)) (skipExisting : Bool)
    (fs : JsMap String String) : List TranslationTask :=
  targetLocales.flatMap (fun targetLocale =>
    screenshots.flatMap (fun s =>
      let outputPaths := taskOutputPaths screenshotsDir
        ((localeMapping.get targetLocale).getD []) s skipExisting fs
      if outputPaths.isEmpty then []
      else [{ sourcePath := s.fullPath, sourceLocale := primaryLocale,
              targetLocale := targetLocale, outputPaths := outputPaths,
              deviceType := s.type, filename := s.filename }]))

/-! ### Gemini response model and `translateImage` -/

/-- One response part; `inlineData` carries the base64 image bytes when
present. -/
structure ResponsePart where
  inlineData : Option String
deriving Repr, DecidableEq

/-- One response candidate with its optional content parts. -/
structure Candidate where
  parts : Option (List ResponsePart)
deriving Repr, DecidableEq

/-- A Gemini response: an optional candidate list. -/
structure GeminiResponse where
  candidates : Option (List Candidate)
deriving Repr, DecidableEq

/-- The `ImageTranslationResult` interface. -/
structure ImageTranslationResult where
  success : Bool
  outputPath : Option String
  error : Option String
deriving Repr, DecidableEq

/-- Filesystem effects of the translator, in program order.  A `call` event
records one request to the Gemini backend for the given source image. -/
inductive FsEvent where
  | call (sourcePath : String)
  | write (path : String) (content : String)
deriving Repr, DecidableEq

/-- Whether an event is a backend call. -/
def FsEvent.isCall : FsEvent → Bool
  | .call _ => true
  | .write _ _ => false

/-- First part carrying inline image data (the `for (const part of parts)`
search). -/
def findInlineData (parts : List ResponsePart) : Option String :=
  (parts.find? (fun p => p.inlineData.isSome)).bind (fun p => p.inlineData)

/-- The image data `translateImage` extracts from a response, if any. -/
def respImage (resp : Except String GeminiResponse) : Option String :=
  match resp with
  | .error _ => none
  | .ok r =>
    match r.candidates with
    | none => none
    | some [] => none
    | some (c :: _) =>
      match c.parts with
      | none => none
      | some parts => findInlineData parts

/-- `translateImage` (the multi-output-path variant of
`gemini-image-translator.util.ts`): given the backend's response for the
source image, either write the PNG-converted image to every output path and
report success, or report the corresponding error string.  `pngEncode` models
the `sharp(imageBuffer).png()` conversion. -/
def translateImage (resp : Except String GeminiResponse) (sourcePath : String)
    (outputPaths : List String) (pngEncode : String → String) :
    ImageTranslationResult × List FsEvent :=
  match resp with
  | .error msg =>
    ({ success := false, outputPath := none, error := some msg }, [.call sourcePath])
  | .ok r =>
    match r.candidates with
    | none =>
      ({ success := false, outputPath := none, error := some "No response from Gemini API" },
        [.call sourcePath])
    | some [] =>
      ({ success := false, outputPath := none, error := some "No response from Gemini API" },
        [.call sourcePath])
    | some (c :: _) =>
      match c.parts with
      | none =>
        ({ success := false, outputPath := none, error := some "No content parts in response" },
          [.call sourcePath])
      | some parts =>
        match findInlineData parts with
        | none =>
          ({ success := false, outputPath := none,
             error := some "No image data in Gemini response" }, [.call sourcePath])
        | some data =>
          ({ success := true, outputPath := outputPaths.head?, error := none },
            .call sourcePath :: outputPaths.map (fun p => .write p (pngEncode data)))

/-- Aggregate result of `translateImagesWithProgress`. -/
structure BatchResult where
  successful : Nat
  failed : Nat
  errors : List (String × String)
deriving Repr, DecidableEq

/-- The sequential task loop of `translateImagesWithProgress`; `oracle i`
is what the backend returns for the `i`-th call of the batch. -/
def runTasks (oracle : Nat → Except String GeminiResponse) (pngEncode : String → String) :
    Nat → List TranslationTask → BatchResult × List FsEvent
  | _, [] => ({ successful := 0, failed := 0, errors := [] }, [])
  | idx, t :: ts =>
    let step := translateImage (oracle idx) t.sourcePath t.outputPaths pngEncode
    let rest := runTasks oracle pngEncode (idx + 1) ts
    if step.1.success then
      ({ successful := rest.1.successful + 1, failed := rest.1.failed,
         errors := rest.1.errors }, step.2 ++ rest.2)
    else
      ({ successful := rest.1.successful, failed := rest.1.failed + 1,
         errors := (t.sourcePath, step.1.error.getD "Unknown error") :: rest.1.errors },
        step.2 ++ rest.2)

/-- `translateImagesWithProgress` over a task list. -/
def translateImagesWithProgress (tasks : List TranslationTask)
    (oracle : Nat → Except String GeminiResponse) (pngEncode : String → String) :
    BatchResult × List FsEvent :=
  runTasks oracle pngEncode 0 tasks

/-- Apply one filesystem event to the path map. -/
def applyEvent (fs : JsMap String String) : FsEvent → JsMap String String
  | .call _ => fs
  | .write p c => fs.set p c

/-- Apply a trace of events in order. -/
def applyEvents (fs : JsMap String String) (evs : List FsEvent) : JsMap String String :=
  evs.foldl applyEvent fs

/-! ### Counting and filesystem lemmas for the orchestrator -/

theorem natSum_eq_zero (l : List Nat) (h : ∀ x ∈ l, x = 0) : l.sum = 0 := by
  induction l with
  | nil => rfl
  | cons x xs ih =>
    rw [List.sum_cons, h x (List.mem_cons_self _ _), Nat.zero_add]
    exact ih (fun y hy => h y (List.mem_cons_of_mem _ hy))

theorem countP_flatMap {α β : Type} (l : List α) (f : α → List β) (p : β → Bool) :
    (l.flatMap f).countP p = (l.map (fun a => (f a).countP p)).sum := by
  induction l with
  | nil => rfl
  | cons a as ih =>
    rw [List.flatMap_cons, List.countP_append, List.map_cons, List.sum_cons, ih]

theorem sum_map_le_of_key {α κ : Type} [DecidableEq κ] (l : List α) (key : α → κ)
    (f : α → Nat) (k : κ) (bound : Nat) (hnd : (l.map key).Nodup)
    (h0 : ∀ b ∈ l, key b ≠ k → f b = 0) (h1 : ∀ b ∈ l, key b = k → f b ≤ bound) :
    (l.map f).sum ≤ bound := by
  induction l with
  | nil => exact Nat.zero_le bound
  | cons b bs ih =>
    rw [List.map_cons, List.nodup_cons] at hnd
    rw [List.map_cons, List.sum_cons]
    by_cases hb : key b = k
    · have hz : (bs.map f).sum = 0 := by
        apply natSum_eq_zero
        intro x hx
        obtain ⟨b', hb', rfl⟩ := List.mem_map.mp hx
        apply h0 b' (List.mem_cons_of_mem _ hb')
        intro hc
        exact hnd.1 (by rw [← hb] at hc; exact hc ▸ List.mem_map.mpr ⟨b', hb', hc.symm ▸ rfl⟩)
      rw [hz, Nat.add_zero]
      exact h1 b (List.mem_cons_self _ _) hb
    · rw [h0 b (List.mem_cons_self _ _) hb, Nat.zero_add]
      exact ih hnd.2 (fun b' hb' => h0 b' (List.mem_cons_of_mem _ hb'))
        (fun b' hb' => h1 b' (List.mem_cons_of_mem _ hb'))

theorem mem_buildTranslationTasks (screenshotsDir : String)
    (screenshots : List ScreenshotInfo) (primaryLocale : String)
    (targetLocales : List String) (localeMapping : JsMap String (List String))
    (skipExisting : Bool) (fs : JsMap String String) (t : TranslationTask) :
    t ∈ buildTranslationTasks screenshotsDir screenshots primaryLocale targetLocales
        localeMapping skipExisting fs ↔
      ∃ g ∈ targetLocales, ∃ s ∈ screenshots,
        taskOutputPaths screenshotsDir ((localeMapping.get g).getD []) s skipExisting fs ≠ [] ∧
        t = { sourcePath := s.fullPath, sourceLocale := primaryLocale, targetLocale := g,
              outputPaths :=
                taskOutputPaths screenshotsDir ((localeMapping.get g).getD []) s skipExisting fs,
              deviceType := s.type, filename := s.filename } := by
  unfold buildTranslationTasks
  simp only [List.mem_flatMap]
  constructor
  · rintro ⟨g, hg, s, hs, ht⟩
    by_cases hemp : (taskOutputPaths screenshotsDir ((localeMapping.get g).getD [])
        s skipExisting fs).isEmpty
    · rw [if_pos hemp] at ht
      cases ht
    · rw [if_neg hemp] at ht
      rcases List.mem_singleton.mp ht with rfl
      exact ⟨g, hg, s, hs, by simpa [List.isEmpty_iff] using hemp, rfl⟩
  · rintro ⟨g, hg, s, hs, hne, rfl⟩
    refine ⟨g, hg, s, hs, ?_⟩
    rw [if_neg (by simpa [List.isEmpty_iff] using hne)]
    exact List.mem_singleton.mpr rfl

theorem fsExists_set_mono (fs : JsMap String String) (p q c : String)
    (h : fsExists fs p = true) : fsExists (fs.set q c) p = true := by
  unfold fsExists at h ⊢
  by_cases hpq : q = p
  · subst hpq
    rw [JsMap.get_set_self]
    rfl
  · rw [JsMap.get_set_ne fs q p c hpq]
    exact h

theorem fsExists_applyEvents_mono (evs : List FsEvent) : ∀ (fs : JsMap String String)
    (p : String), fsExists fs p = true → fsExists (applyEvents fs evs) p = true := by
  induction evs with
  | nil => intro fs p h; exact h
  | cons ev evs ih =>
    intro fs p h
    show fsExists (applyEvents (applyEvent fs ev) evs) p = true
    apply ih
    cases ev with
    | call _ => exact h
    | write q c => exact fsExists_set_mono fs p q c h

theorem applyEvents_append (fs : JsMap String String) (a b : List FsEvent) :
    applyEvents fs (a ++ b) = applyEvents (applyEvents fs a) b := by
  unfold applyEvents
  rw [List.foldl_append]

theorem get_applyWrites_not_mem (ps : List String) (c : String) :
    ∀ (fs : JsMap String String) (p : String), p ∉ ps →
      (applyEvents fs (ps.map (fun q => FsEvent.write q c))).get p = fs.get p := by
  induction ps with
  | nil => intro fs p _; rfl
  | cons q qs ih =>
    intro fs p hp
    show (applyEvents (fs.set q c) (qs.map (fun q => FsEvent.write q c))).get p = _
    rw [ih (fs.set q c) p (fun hq => hp (List.mem_cons_of_mem _ hq))]
    exact JsMap.get_set_ne fs q p c (fun hq => hp (hq ▸ List.mem_cons_self _ _))

theorem get_applyWrites (ps : List String) (c : String) :
    ∀ (fs : JsMap String String) (p : String), p ∈ ps →
      (applyEvents fs (ps.map (fun q => FsEvent.write q c))).get p = some c := by
  induction ps with
  | nil => intro fs p hp; cases hp
  | cons q qs ih =>
    intro fs p hp
    show (applyEvents (fs.set q c) (qs.map (fun q => FsEvent.write q c))).get p = _
    by_cases hq : p ∈ qs
    · exact ih (fs.set q c) p hq
    · rcases List.mem_cons.mp hp with rfl | hp'
      · rw [get_applyWrites_not_mem qs c (fs.set p c) p hq]
        exact JsMap.get_set_self fs p c
      · exact absurd hp' hq

theorem filter_isCall_writes (ps : List String) (c : String) :
    ((ps.map (fun q => FsEvent.write q c)).filter FsEvent.isCall) = [] := by
  induction ps with
  | nil => rfl
  | cons q qs ih =>
    simp only [List.map_cons, List.filter_cons]
    rw [if_neg (by simp [FsEvent.isCall])]
    exact ih

theorem translateImage_success_eq (resp : Except String GeminiResponse)
    (sourcePath : String) (outputPaths : List String) (pngEncode : String → String) :
    (translateImage resp sourcePath outputPaths pngEncode).1.success =
      (respImage resp).isSome := by
  cases resp with
  | error msg => rfl
  | ok r =>
    obtain ⟨cands⟩ := r
    cases cands with
    | none => rfl
    | some cs =>
      cases cs with
      | nil => rfl
      | cons c rest =>
        obtain ⟨ps⟩ := c
        cases ps with
        | none => rfl
        | some parts =>
          cases hf : findInlineData parts with
          | none => simp [translateImage, respImage, hf]
          | some d => simp [translateImage, respImage, hf]

theorem translateImage_events_of_image (resp : Except String GeminiResponse)
    (sourcePath : String) (outputPaths : List String) (pngEncode : String → String)
    (d : String) (h : respImage resp = some d) :
    (translateImage resp sourcePath outputPaths pngEncode).2 =
      FsEvent.call sourcePath ::
        outputPaths.map (fun p => FsEvent.write p (pngEncode d)) := by
  cases resp with
  | error msg => cases h
  | ok r =>
    obtain ⟨cands⟩ := r
    cases cands with
    | none => cases h
    | some cs =>
      cases cs with
      | nil => cases h
      | cons c rest =>
        obtain ⟨ps⟩ := c
        cases ps with
        | none => cases h
        | some parts =>
          have h' : findInlineData parts = some d := by simpa [respImage] using h
          simp [translateImage, h']

theorem translateImage_calls (resp : Except String GeminiResponse)
    (sourcePath : String) (outputPaths : List String) (pngEncode : String → String) :
    (translateImage resp sourcePath outputPaths pngEncode).2.filter FsEvent.isCall =
      [FsEvent.call sourcePath] := by
  cases resp with
  | error msg => rfl
  | ok r =>
    obtain ⟨cands⟩ := r
    cases cands with
    | none => rfl
    | some cs =>
      cases cs with
      | nil => rfl
      | cons c rest =>
        obtain ⟨ps⟩ := c
        cases ps with
        | none => rfl
        | some parts =>
          cases hf : findInlineData parts with
          | none => simp [translateImage, hf, FsEvent.isCall]
          | some d =>
            simp only [translateImage, hf]
            simp only [List.filter_cons]
            rw [if_pos (by simp [FsEvent.isCall])]
            rw [filter_isCall_writes]

theorem runTasks_events_cons (oracle : Nat → Except String GeminiResponse)
    (pngEncode : String → String) (idx : Nat) (t : TranslationTask)
    (ts : List TranslationTask) :
    (runTasks oracle pngEncode idx (t :: ts)).2 =
      (translateImage (oracle idx) t.sourcePath t.outputPaths pngEncode).2 ++
        (runTasks oracle pngEncode (idx + 1) ts).2 := by
  simp only [runTasks]
  by_cases h : (translateImage (oracle idx) t.sourcePath t.outputPaths pngEncode).1.success
  · simp [h]
  · simp [h]

theorem runTasks_props (oracle : Nat → Except String GeminiResponse)
    (pngEncode : String → String) (tasks : List TranslationTask) : ∀ idx : Nat,
    (runTasks oracle pngEncode idx tasks).1.successful +
        (runTasks oracle pngEncode idx tasks).1.failed = tasks.length ∧
    (runTasks oracle pngEncode idx tasks).1.errors.length =
        (runTasks oracle pngEncode idx tasks).1.failed ∧
    (∀ e ∈ (runTasks oracle pngEncode idx tasks).1.errors,
        e.1 ∈ tasks.map (fun t => t.sourcePath)) ∧
    (runTasks oracle pngEncode idx tasks).2.filter FsEvent.isCall =
        tasks.map (fun t => FsEvent.call t.sourcePath) := by
  induction tasks with
  | nil =>
    intro idx
    exact ⟨rfl, rfl, fun e he => absurd he (List.not_mem_nil e), rfl⟩
  | cons t ts ih =>
    intro idx
    obtain ⟨ih1, ih2, ih3, ih4⟩ := ih (idx + 1)
    have hev : (runTasks oracle pngEncode idx (t :: ts)).2.filter FsEvent.isCall =
        (t :: ts).map (fun t => FsEvent.call t.sourcePath) := by
      rw [runTasks_events_cons, List.filter_append, translateImage_calls, ih4]
      rfl
    by_cases h : (translateImage (oracle idx) t.sourcePath t.outputPaths pngEncode).1.success
    · have hr : (runTasks oracle pngEncode idx (t :: ts)).1 =
          { successful := (runTasks oracle pngEncode (idx + 1) ts).1.successful + 1,
            failed := (runTasks oracle pngEncode (idx + 1) ts).1.failed,
            errors := (runTasks oracle pngEncode (idx + 1) ts).1.errors } := by
        simp only [runTasks]
        simp [h]
      rw [hr]
      refine ⟨by simp only [List.length_cons]; omega, ih2, ?_, hev⟩
      intro e he
      exact List.mem_cons_of_mem _ (ih3 e he)
    · have hr : (runTasks oracle pngEncode idx (t :: ts)).1 =
          { successful := (runTasks oracle pngEncode (idx + 1) ts).1.successful,
            failed := (runTasks oracle pngEncode (idx + 1) ts).1.failed + 1,
            errors := (t.sourcePath,
                (translateImage (oracle idx) t.sourcePath t.outputPaths pngEncode).1.error.getD
                  "Unknown error") ::
              (runTasks oracle pngEncode (idx + 1) ts).1.errors } := by
        simp only [runTasks]
        simp [h]
      rw [hr]
      refine ⟨by simp only [List.length_cons]; omega,
        by simp only [List.length_cons]; omega, ?_, hev⟩
      intro e he
      rcases List.mem_cons.mp he with rfl | he'
      · exact List.mem_map.mpr ⟨t, List.mem_cons_self _ _, rfl⟩
      · exact List.mem_cons_of_mem _ (ih3 e he')

theorem runTasks_success_writes (oracle : Nat → Except String GeminiResponse)
    (pngEncode : String → String) (tasks : List TranslationTask) :
    ∀ (idx : Nat) (fs : JsMap String String),
    (∀ i, i < tasks.length → (respImage (oracle (idx + i))).isSome) →
    ∀ t ∈ tasks, ∀ p ∈ t.outputPaths,
      fsExists (applyEvents fs (runTasks oracle pngEncode idx tasks).2) p = true := by
  induction tasks with
  | nil => intro idx fs _ t ht; cases ht
  | cons t ts ih =>
    intro idx fs hsucc t' ht' p hp
    rw [runTasks_events_cons, applyEvents_append]
    have h0 : (respImage (oracle idx)).isSome := by
      have := hsucc 0 (by simp)
      rwa [Nat.add_zero] at this
    obtain ⟨d, hd⟩ := Option.isSome_iff_exists.mp h0
    rcases List.mem_cons.mp ht' with rfl | ht''
    · apply fsExists_applyEvents_mono
      rw [translateImage_events_of_image (oracle idx) t'.sourcePath t'.outputPaths
        pngEncode d hd]
      have : applyEvents fs
          (FsEvent.call t'.sourcePath ::
            t'.outputPaths.map (fun q => FsEvent.write q (pngEncode d))) =
          applyEvents fs (t'.outputPaths.map (fun q => FsEvent.write q (pngEncode d))) := rfl
      rw [this]
      unfold fsExists
      rw [get_applyWrites _ _ _ p hp]
      rfl
    · refine ih (idx + 1) _ ?_ t' ht'' p hp
      intro i hi
      have := hsucc (i + 1) (by simpa using Nat.succ_lt_succ hi)
      rwa [show idx + (i + 1) = idx + 1 + i by omega] at this

/-- C5: the batch loop of `translateImagesWithProgress` processes every task
in list order regardless of failures: the counters always satisfy
`successful + failed = tasks.length`, each failure contributes exactly one
error record carrying the failing task's source path, and the backend-call
subtrace is exactly one call per task, in task order (so no retry and no
abort). -/
theorem c5_batch_isolation (tasks : List TranslationTask)
    (oracle : Nat → Except String GeminiResponse) (pngEncode : String → String) :
    (translateImagesWithProgress tasks oracle pngEncode).1.successful +
        (translateImagesWithProgress tasks oracle pngEncode).1.failed = tasks.length ∧
    (translateImagesWithProgress tasks oracle pngEncode).1.errors.length =
        (translateImagesWithProgress tasks oracle pngEncode).1.failed ∧
    (∀ e ∈ (translateImagesWithProgress tasks oracle pngEncode).1.errors,
        e.1 ∈ tasks.map (fun t => t.sourcePath)) ∧
    (translateImagesWithProgress tasks oracle pngEncode).2.filter FsEvent.isCall =
        tasks.map (fun t => FsEvent.call t.sourcePath) :=
  runTasks_props oracle pngEncode tasks 0

/-- Witness for C5 on a two-task batch whose second backend call fails. -/
theorem c5_witness :
    (translateImagesWithProgress
        [⟨"s/1.png", "en-US", "ko-KR", ["d/ko-KR/phone/raw/1.png"], .phone, "1.png"⟩,
         ⟨"s/2.png", "en-US", "ko-KR", ["d/ko-KR/phone/raw/2.png"], .phone, "2.png"⟩]
        (fun i => if i = 0 then
            Except.ok ⟨some [⟨some [⟨some "IMG"⟩]⟩]⟩
          else Except.error "network error")
        (fun s => s)).1.successful +
      (translateImagesWithProgress
        [⟨"s/1.png", "en-US", "ko-KR", ["d/ko-KR/phone/raw/1.png"], .phone, "1.png"⟩,
         ⟨"s/2.png", "en-US", "ko-KR", ["d/ko-KR/phone/raw/2.png"], .phone, "2.png"⟩]
        (fun i => if i = 0 then
            Except.ok ⟨some [⟨some [⟨some "IMG"⟩]⟩]⟩
          else Except.error "network error")
        (fun s => s)).1.failed = 2 :=
  (c5_batch_isolation _ _ _).1

/-- C4: when the backend response carries inline image data, `translateImage`
reports success, performs exactly one backend call, and writes the single
PNG-converted image to every output path of the task. -/
theorem c4_fanout_write (resp : Except String GeminiResponse) (sourcePath : String)
    (outputPaths : List String) (pngEncode : String → String) (fs : JsMap String String)
    (d : String) (h : respImage resp = some d) :
    (translateImage resp sourcePath outputPaths pngEncode).1.success = true ∧
    (∀ p ∈ outputPaths,
      (applyEvents fs (translateImage resp sourcePath outputPaths pngEncode).2).get p =
        some (pngEncode d)) ∧
    (translateImage resp sourcePath outputPaths pngEncode).2.filter FsEvent.isCall =
      [FsEvent.call sourcePath] := by
  refine ⟨?_, ?_, translateImage_calls resp sourcePath outputPaths pngEncode⟩
  · rw [translateImage_success_eq, h]
    rfl
  · intro p hp
    rw [translateImage_events_of_image resp sourcePath outputPaths pngEncode d h]
    have : applyEvents fs
        (FsEvent.call sourcePath ::
          outputPaths.map (fun q => FsEvent.write q (pngEncode d))) =
        applyEvents fs (outputPaths.map (fun q => FsEvent.write q (pngEncode d))) := rfl
    rw [this]
    exact get_applyWrites _ _ _ p hp

/-- Witness for C4 at a concrete successful response fanned out to two
paths. -/
theorem c4_witness :
    (translateImage (Except.ok ⟨some [⟨some [⟨some "IMG"⟩]⟩]⟩) "s/1.png"
        ["d/a/1.png", "d/b/1.png"] (fun s => s)).1.success = true ∧
    (applyEvents [] (translateImage (Except.ok ⟨some [⟨some [⟨some "IMG"⟩]⟩]⟩) "s/1.png"
        ["d/a/1.png", "d/b/1.png"] (fun s => s)).2).get "d/b/1.png" = some "IMG" :=
  ⟨(c4_fanout_write (Except.ok ⟨some [⟨some [⟨some "IMG"⟩]⟩]⟩) "s/1.png"
      ["d/a/1.png", "d/b/1.png"] (fun s => s) [] "IMG" rfl).1,
   (c4_fanout_write (Except.ok ⟨some [⟨some [⟨some "IMG"⟩]⟩]⟩) "s/1.png"
      ["d/a/1.png", "d/b/1.png"] (fun s => s) [] "IMG" rfl).2.1 "d/b/1.png"
      (by simp)⟩

/-- C3: per (target group key, screenshot) pair `buildTranslationTasks` emits
at most one task; a task's `outputPaths` holds one path per member locale of
its group, dropping (under `skipExisting`) every path whose file already
exists; a task is emitted exactly when that filtered list is non-empty. -/
theorem c3_build_tasks_shape (screenshotsDir : String)
    (screenshots : List ScreenshotInfo) (primaryLocale : String)
    (targetLocales : List String) (localeMapping : JsMap String (List String))
    (skipExisting : Bool) (fs : JsMap String String)
    (htargets : targetLocales.Nodup)
    (hshots : (screenshots.map (fun s => (s.type, s.filename))).Nodup) :
    (∀ g ∈ targetLocales, ∀ s ∈ screenshots,
      (buildTranslationTasks screenshotsDir screenshots primaryLocale targetLocales
          localeMapping skipExisting fs).countP
        (fun t => decide (t.targetLocale = g ∧ t.deviceType = s.type ∧
          t.filename = s.filename)) ≤ 1) ∧
    (∀ t ∈ buildTranslationTasks screenshotsDir screenshots primaryLocale targetLocales
        localeMapping skipExisting fs,
      t.outputPaths =
        (((localeMapping.get t.targetLocale).getD []).map
          (fun locale => rawOutputPath screenshotsDir locale t.deviceType t.filename)).filter
          (fun p => !skipExisting || !(fsExists fs p)) ∧
      t.outputPaths ≠ []) ∧
    (skipExisting = true →
      ∀ t ∈ buildTranslationTasks screenshotsDir screenshots primaryLocale targetLocales
          localeMapping skipExisting fs,
        ∀ p ∈ t.outputPaths, fsExists fs p = false) ∧
    (∀ g ∈ targetLocales, ∀ s ∈ screenshots,
      ((∃ t ∈ buildTranslationTasks screenshotsDir screenshots primaryLocale targetLocales
          localeMapping skipExisting fs,
        t.targetLocale = g ∧ t.deviceType = s.type ∧ t.filename = s.filename) ↔
        taskOutputPaths screenshotsDir ((localeMapping.get g).getD []) s
          skipExisting fs ≠ [])) := by
  refine ⟨?_, ?_, ?_, ?_⟩
  · intro g hg s hs
    unfold buildTranslationTasks
    rw [countP_flatMap]
    apply sum_map_le_of_key targetLocales id _ g 1 (by simpa using htargets)
    · intro g' _ hne
      rw [List.countP_eq_zero]
      intro t ht
      obtain ⟨s', _, ht'⟩ := List.mem_flatMap.mp ht
      by_cases hemp : (taskOutputPaths screenshotsDir ((localeMapping.get g').getD [])
          s' skipExisting fs).isEmpty
      · rw [if_pos hemp] at ht'
        cases ht'
      · rw [if_neg hemp] at ht'
        rcases List.mem_singleton.mp ht' with rfl
        simp only [decide_eq_true_eq, not_and]
        intro hgl
        exact absurd hgl hne
    · intro g' _ hid
      have hg' : g' = g := hid
      subst hg'
      rw [countP_flatMap]
      apply sum_map_le_of_key screenshots (fun s' => (s'.type, s'.filename)) _
        (s.type, s.filename) 1 hshots
      · intro s' _ hne
        rw [List.countP_eq_zero]
        intro t ht
        by_cases hemp : (taskOutputPaths screenshotsDir ((localeMapping.get g').getD [])
            s' skipExisting fs).isEmpty
        · rw [if_pos hemp] at ht
          cases ht
        · rw [if_neg hemp] at ht
          rcases List.mem_singleton.mp ht with rfl
          simp only [decide_eq_true_eq, not_and]
          intro _ h1 h2
          exact hne (by rw [h1, h2])
      · intro s' _ _
        refine le_trans (List.countP_le_length _) ?_
        by_cases hemp : (taskOutputPaths screenshotsDir ((localeMapping.get g').getD [])
            s' skipExisting fs).isEmpty
        · rw [if_pos hemp]
          exact Nat.zero_le 1
        · rw [if_neg hemp]
          exact le_refl 1
  · intro t ht
    obtain ⟨g, _, s, _, hne, rfl⟩ := (mem_buildTranslationTasks screenshotsDir screenshots
      primaryLocale targetLocales localeMapping skipExisting fs t).mp ht
    exact ⟨rfl, hne⟩
  · intro hskip t ht p hp
    obtain ⟨g, _, s, _, _, rfl⟩ := (mem_buildTranslationTasks screenshotsDir screenshots
      primaryLocale targetLocales localeMapping skipExisting fs t).mp ht
    simp only [taskOutputPaths] at hp
    rcases List.mem_filter.mp hp with ⟨_, hkeep⟩
    subst hskip
    simpa using hkeep
  · intro g hg s hs
    constructor
    · rintro ⟨t, ht, hgl, hty, hfn⟩
      obtain ⟨g', _, s', _, hne, rfl⟩ := (mem_buildTranslationTasks screenshotsDir
        screenshots primaryLocale targetLocales localeMapping skipExisting fs t).mp ht
      have hg' : g' = g := hgl
      have hty' : s'.type = s.type := hty
      have hfn' : s'.filename = s.filename := hfn
      have heq : taskOutputPaths screenshotsDir ((localeMapping.get g).getD []) s
          skipExisting fs =
          taskOutputPaths screenshotsDir ((localeMapping.get g').getD []) s'
            skipExisting fs := by
        unfold taskOutputPaths rawOutputPath
        rw [hg', hty', hfn']
      rw [heq]
      exact hne
    · intro hne
      refine ⟨{ sourcePath := s.fullPath, sourceLocale := primaryLocale,
                targetLocale := g,
                outputPaths := taskOutputPaths screenshotsDir
                  ((localeMapping.get g).getD []) s skipExisting fs,
                deviceType := s.type, filename := s.filename }, ?_, rfl, rfl, rfl⟩
      exact (mem_buildTranslationTasks screenshotsDir screenshots primaryLocale
        targetLocales localeMapping skipExisting fs _).mpr ⟨g, hg, s, hs, hne, rfl⟩

/-- Witness for C3 on a concrete one-group, one-screenshot input. -/
theorem c3_witness :
    (buildTranslationTasks "d" [⟨.phone, "1.png", "s/phone/1.png"⟩] "en-US" ["ko-KR"]
        [("ko-KR", ["ko-KR"])] true []).countP
      (fun t => decide (t.targetLocale = "ko-KR" ∧ t.deviceType = DeviceType.phone ∧
        t.filename = "1.png")) ≤ 1 :=
  (c3_build_tasks_shape "d" [⟨.phone, "1.png", "s/phone/1.png"⟩] "en-US" ["ko-KR"]
      [("ko-KR", ["ko-KR"])] true [] (by decide) (by decide)).1
    "ko-KR" (by decide) ⟨.phone, "1.png", "s/phone/1.png"⟩ (by decide)

/-- C2 (amended): when every backend call of the first run returns an image,
running task construction again with `skipExisting = true` on the filesystem
produced by the first run yields no tasks at all. -/
theorem c2_skip_existing_fixed_point (screenshotsDir : String)
    (screenshots : List ScreenshotInfo) (primaryLocale : String)
    (targetLocales : List String) (localeMapping : JsMap String (List String))
    (fs0 : JsMap String String) (oracle : Nat → Except String GeminiResponse)
    (pngEncode : String → String)
    (hsucc : ∀ i, i < (buildTranslationTasks screenshotsDir screenshots primaryLocale
        targetLocales localeMapping true fs0).length →
      (respImage (oracle i)).isSome) :
    buildTranslationTasks screenshotsDir screenshots primaryLocale targetLocales
      localeMapping true
      (applyEvents fs0
        (translateImagesWithProgress
          (buildTranslationTasks screenshotsDir screenshots primaryLocale targetLocales
            localeMapping true fs0) oracle pngEncode).2) = [] := by
  rw [List.eq_nil_iff_forall_not_mem]
  intro t ht
  obtain ⟨g, hg, s, hs, hne, rfl⟩ := (mem_buildTranslationTasks _ _ _ _ _ _ _ t).mp ht
  apply hne
  unfold taskOutputPaths
  rw [List.filter_eq_nil_iff]
  intro p hp
  suffices hex : fsExists (applyEvents fs0
      (translateImagesWithProgress
        (buildTranslationTasks screenshotsDir screenshots primaryLocale targetLocales
          localeMapping true fs0) oracle pngEncode).2) p = true by
    simp [hex]
  by_cases h0 : fsExists fs0 p
  · exact fsExists_applyEvents_mono _ fs0 p h0
  · have hmem1 : p ∈ taskOutputPaths screenshotsDir ((localeMapping.get g).getD []) s
        true fs0 := by
      unfold taskOutputPaths
      refine List.mem_filter.mpr ⟨hp, ?_⟩
      simp only [Bool.not_eq_true] at h0
      simp [h0]
    have htask := (mem_buildTranslationTasks screenshotsDir screenshots primaryLocale
        targetLocales localeMapping true fs0
        ⟨s.fullPath, primaryLocale, g,
          taskOutputPaths screenshotsDir ((localeMapping.get g).getD []) s true fs0,
          s.type, s.filename⟩).mpr
      ⟨g, hg, s, hs, List.ne_nil_of_mem hmem1, rfl⟩
    exact runTasks_success_writes oracle pngEncode _ 0 fs0
      (fun i hi => by simpa using hsucc i hi) _ htask p hmem1

/-- Counterexample to C2 as stated: with a single pending task whose backend
call fails, the first run completes (its tallies add up) yet writes nothing,
so a second task construction with `skipExisting = true` still yields that
task. -/
theorem c2_counterexample :
    (translateImagesWithProgress
        (buildTranslationTasks "d" [⟨.phone, "1.png", "s/phone/1.png"⟩] "en-US"
          ["ko-KR"] [("ko-KR", ["ko-KR"])] true [])
        (fun _ => Except.error "network error") (fun s => s)).1.successful +
      (translateImagesWithProgress
        (buildTranslationTasks "d" [⟨.phone, "1.png", "s/phone/1.png"⟩] "en-US"
          ["ko-KR"] [("ko-KR", ["ko-KR"])] true [])
        (fun _ => Except.error "network error") (fun s => s)).1.failed =
      (buildTranslationTasks "d" [⟨.phone, "1.png", "s/phone/1.png"⟩] "en-US"
        ["ko-KR"] [("ko-KR", ["ko-KR"])] true []).length ∧
    buildTranslationTasks "d" [⟨.phone, "1.png", "s/phone/1.png"⟩] "en-US"
      ["ko-KR"] [("ko-KR", ["ko-KR"])] true
      (applyEvents []
        (translateImagesWithProgress
          (buildTranslationTasks "d" [⟨.phone, "1.png", "s/phone/1.png"⟩] "en-US"
            ["ko-KR"] [("ko-KR", ["ko-KR"])] true [])
          (fun _ => Except.error "network error") (fun s => s)).2) ≠ [] := by
  constructor
  · rfl
  · decide

/-- Witness for C2 (amended): a concrete all-success first run leaves no task
for the second run. -/
theorem c2_witness :
    buildTranslationTasks "d" [⟨.phone, "1.png", "s/phone/1.png"⟩] "en-US"
      ["ko-KR"] [("ko-KR", ["ko-KR"])] true
      (applyEvents []
        (translateImagesWithProgress
          (buildTranslationTasks "d" [⟨.phone, "1.png", "s/phone/1.png"⟩] "en-US"
            ["ko-KR"] [("ko-KR", ["ko-KR"])] true [])
          (fun _ => Except.ok ⟨some [⟨some [⟨some "IMG"⟩]⟩]⟩) (fun s => s)).2) = [] :=
  c2_skip_existing_fixed_point "d" [⟨.phone, "1.png", "s/phone/1.png"⟩] "en-US"
    ["ko-KR"] [("ko-KR", ["ko-KR"])] []
    (fun _ => Except.ok ⟨some [⟨some [⟨some "IMG"⟩]⟩]⟩) (fun s => s)
    (fun _ _ => rfl)

/-! ## Image normalizer
Embeds `getImageDimensions`, `detectEdgeColor`, `resizeImage` and
`validateAndResizeImage` from
`src/tools/aso/utils/localize-screenshots/image-resizer.util.ts`.

An image file is either a raw image (dimensions, channel count, byte buffer)
or a resize output.  The pixel mathematics of the `sharp` library's
`resize(..., fit: "contain")` call is modelled from the spec: scale to fit
entirely inside the target preserving aspect ratio (round half up), centre,
and fill the remaining canvas with the background colour; the actual
resampling of content pixels is an abstract `resample` parameter. -/

/-- An RGB colour with byte components. -/
structure RgbColor where
  r : Nat
  g : Nat
  b : Nat
deriving Repr, DecidableEq

/-- The `ImageDimensions` interface. -/
structure ImageDimensions where
  width : Nat
  height : Nat
deriving Repr, DecidableEq

/-- A decoded raster image: dimensions, channel count and raw byte buffer
(what `sharp(...).raw().toBuffer()` yields). -/
structure RawImage where
  width : Nat
  height : Nat
  channels : Nat
  data : Nat → Nat

/-- The result image of the modelled `contain` resize: exact target canvas,
a centred content rectangle, and the fill colour. -/
structure ResizedImage where
  width : Nat
  height : Nat
  contentW : Nat
  contentH : Nat
  offX : Nat
  offY : Nat
  bg : RgbColor
  content : Nat → Nat → RgbColor

/-- Pixel of a resize output: content inside the content rectangle,
background fill outside. -/
def ResizedImage.pix (o : ResizedImage) (x y : Nat) : RgbColor :=
  if o.offX ≤ x ∧ x < o.offX + o.contentW ∧ o.offY ≤ y ∧ y < o.offY + o.contentH then
    o.content (x - o.offX) (y - o.offY)
  else o.bg

/-- A file on disk, as far as the image tools can observe it. -/
inductive FileData where
  | raw (img : RawImage)
  | out (o : ResizedImage)

/-- Image dimensions of a file. -/
def FileData.dims : FileData → ImageDimensions
  | .raw i => ⟨i.width, i.height⟩
  | .out o => ⟨o.width, o.height⟩

/-- Byte of the decoded 3-channel buffer of a resize output. -/
def outByte (o : ResizedImage) (idx : Nat) : Nat :=
  let p := idx / 3
  let c := idx % 3
  let col := o.pix (p % o.width) (p / o.width)
  if c = 0 then col.r else if c = 1 then col.g else col.b

/-- View a file as a decodable raw image (what `sharp(path).raw()` would
produce). -/
def FileData.toRaw : FileData → RawImage
  | .raw i => i
  | .out o => ⟨o.width, o.height, 3, fun idx => outByte o idx⟩

/-- `getImageDimensions`: fails when the file is unreadable or reports a
falsy width or height. -/
def getImageDimensions (fs : JsMap String FileData) (imagePath : String) :
    Except String ImageDimensions :=
  match fs.get imagePath with
  | none => .error ("Unable to read dimensions from " ++ imagePath)
  | some fd =>
    if fd.dims.width = 0 ∨ fd.dims.height = 0 then
      .error ("Unable to read dimensions from " ++ imagePath)
    else .ok fd.dims

/-! ### `detectEdgeColor` -/

/-- The defaulted width `metadata.width || 100`. -/
def edgeWidth (img : RawImage) : Nat :=
  if img.width = 0 then 100 else img.width

/-- The defaulted height `metadata.height || 100`. -/
def edgeHeight (img : RawImage) : Nat :=
  if img.height = 0 then 100 else img.height

/-- Colour quantization `Math.round(v / 16) * 16`. -/
def quantize (v : Nat) : Nat :=
  ((v + 8) / 16) * 16

/-- The quantized colour sampled at pixel `(x, y)`. -/
def sampleColor (img : RawImage) (x y : Nat) : RgbColor :=
  let w := edgeWidth img
  let idx := (y * w + x) * img.channels
  ⟨quantize (img.data idx), quantize (img.data (idx + 1)), quantize (img.data (idx + 2))⟩

/-- The `Map` key string `"qr,qg,qb"`, as the component triple. -/
def sampleKey (img : RawImage) (xy : Nat × Nat) : Nat × Nat × Nat :=
  let c := sampleColor img xy.1 xy.2
  (c.r, c.g, c.b)

/-- The colour determined by a quantized key triple. -/
def keyColor (k : Nat × Nat × Nat) : RgbColor :=
  ⟨k.1, k.2.1, k.2.2⟩

/-- One `sampleEdgePixel` call: bump the count under the quantized colour key
or insert a fresh entry. -/
def samplePixel (img : RawImage) (counts : JsMap (Nat × Nat × Nat) (Nat × RgbColor))
    (xy : Nat × Nat) : JsMap (Nat × Nat × Nat) (Nat × RgbColor) :=
  let k := sampleKey img xy
  match counts.get k with
  | some entry => counts.set k (entry.1 + 1, entry.2)
  | none => counts.set k (1, keyColor k)

/-- The pixels the edge loops sample, in loop order: top and bottom edges for
even `x`, then left and right edges for even `y`. -/
def edgeSamples (img : RawImage) : List (Nat × Nat) :=
  let w := edgeWidth img
  let h := edgeHeight img
  ((List.range w).filter (fun x => x % 2 = 0)).flatMap (fun x => [(x, 0), (x, h - 1)]) ++
    ((List.range h).filter (fun y => y % 2 = 0)).flatMap (fun y => [(0, y), (w - 1, y)])

/-- The scan for the most common colour: strict improvement over the running
maximum, starting from count zero and white. -/
def selectDominant (counts : JsMap (Nat × Nat × Nat) (Nat × RgbColor)) : Nat × RgbColor :=
  counts.foldl (fun acc e => if acc.1 < e.2.1 then e.2 else acc) (0, ⟨255, 255, 255⟩)

/-- `detectEdgeColor`: the most common quantized sampled edge colour, white
when nothing beats the initial zero count. -/
def detectEdgeColor (img : RawImage) : RgbColor :=
  (selectDominant ((edgeSamples img).foldl (samplePixel img) [])).2

/-! ### `resizeImage` and `validateAndResizeImage` -/

/-- Round-half-up division, `Math.round(a / b)` for non-negative `a / b`. -/
def roundDiv (a b : Nat) : Nat :=
  (2 * a + b) / (2 * b)

/-- Modelled from the spec: the content dimensions of `sharp`'s
`fit: "contain"` — scale the `w × h` input to the largest size fitting inside
`tw × th` that preserves the aspect ratio. -/
def containDims (w h tw th : Nat) : Nat × Nat :=
  if h * tw ≤ w * th then (tw, roundDiv (h * tw) w) else (roundDiv (w * th) h, th)

/-- Filesystem effects of a resize: a write of a new file and a rename. -/
inductive ImgEvent where
  | write (path : String) (fd : FileData)
  | rename (src dst : String)

/-- Remove a path from the file map (`renameSync` removing its source). -/
def fsRemove (fs : JsMap String FileData) (p : String) : JsMap String FileData :=
  fs.filter (fun e => e.1 ≠ p)

/-- The image `resizeImage` produces for a given input file: exact target
canvas, `contain`-fitted centred content, and the detected or overridden
background fill. -/
def resizeOutput (resample : RawImage → Nat × Nat → Nat → Nat → RgbColor)
    (fd : FileData) (target : ImageDimensions) (bgOverride : Option RgbColor) :
    ResizedImage :=
  let img := fd.toRaw
  let bg := match bgOverride with
    | some c => c
    | none => detectEdgeColor img
  let cd := containDims img.width img.height target.width target.height
  ⟨target.width, target.height, cd.1, cd.2,
    (target.width - cd.1) / 2, (target.height - cd.2) / 2, bg,
    resample img cd⟩

/-- `resizeImage`: detect the background colour from the input (or take the
supplied override), scale to fit inside the target with `fit: "contain"`,
fill the rest of the canvas, write to `outputPath + ".tmp"` and rename onto
`outputPath`.  With `bgOverride = none` this is exactly the source function of
`image-resizer.util.ts`; the override argument is modelled from the spec for
the 4-argument variant that `resize-screenshots.ts` imports from the
`screenshots/utils` module, which is not part of the provided sources.
`resample` abstracts the resampling of content pixels. -/
def resizeImage (resample : RawImage → Nat × Nat → Nat → Nat → RgbColor)
    (fs : JsMap String FileData) (inputPath outputPath : String)
    (target : ImageDimensions) (bgOverride : Option RgbColor) :
    Except String (JsMap String FileData × List ImgEvent) :=
  match fs.get inputPath with
  | none => .error ("Input file not found: " ++ inputPath)
  | some fd =>
    let o := resizeOutput resample fd target bgOverride
    let tmp := outputPath ++ ".tmp"
    .ok (JsMap.set (fsRemove (JsMap.set fs tmp (.out o)) tmp) outputPath (.out o),
      [.write tmp (.out o), .rename tmp outputPath])

/-- Result record of `validateAndResizeImage`. -/
structure ValidateResult where
  resized : Bool
  sourceDimensions : ImageDimensions
  translatedDimensions : ImageDimensions
  finalDimensions : ImageDimensions
deriving Repr, DecidableEq

/-- `validateAndResizeImage`: compare the translated file's dimensions to the
source file's; resize the translated file in place (onto the source
dimensions) only when they differ. -/
def validateAndResizeImage (resample : RawImage → Nat × Nat → Nat → Nat → RgbColor)
    (fs : JsMap String FileData) (sourcePath translatedPath : String) :
    Except String (ValidateResult × JsMap String FileData × List ImgEvent) :=
  match getImageDimensions fs sourcePath with
  | .error e => .error e
  | .ok sourceDimensions =>
    match getImageDimensions fs translatedPath with
    | .error e => .error e
    | .ok translatedDimensions =>
      if sourceDimensions.width ≠ translatedDimensions.width ∨
          sourceDimensions.height ≠ translatedDimensions.height then
        match resizeImage resample fs translatedPath translatedPath sourceDimensions none with
        | .error e => .error e
        | .ok (fs', evs) =>
          .ok (⟨true, sourceDimensions, translatedDimensions, sourceDimensions⟩, fs', evs)
      else
        .ok (⟨false, sourceDimensions, translatedDimensions, sourceDimensions⟩, fs, [])

/-! ### Lemmas about `detectEdgeColor` -/

/-- Number of edge samples showing a given quantized colour. -/
def sampleCount (img : RawImage) (c : RgbColor) : Nat :=
  (edgeSamples img).countP (fun xy => decide (sampleColor img xy.1 xy.2 = c))

theorem sampleKey_eq_iff (img : RawImage) (xy : Nat × Nat) (k : Nat × Nat × Nat) :
    sampleKey img xy = k ↔ sampleColor img xy.1 xy.2 = keyColor k := by
  unfold sampleKey keyColor
  obtain ⟨r, g, b⟩ := sampleColor img xy.1 xy.2
  obtain ⟨kr, kg, kb⟩ := k
  simp [Prod.ext_iff, RgbColor.mk.injEq]

theorem dominant_fold_ge (l : JsMap (Nat × Nat × Nat) (Nat × RgbColor)) :
    ∀ init : Nat × RgbColor,
      init.1 ≤ (l.foldl (fun acc e => if acc.1 < e.2.1 then e.2 else acc) init).1 ∧
      ∀ e ∈ l, e.2.1 ≤ (l.foldl (fun acc e => if acc.1 < e.2.1 then e.2 else acc) init).1 := by
  induction l with
  | nil => intro init; exact ⟨le_refl _, fun e he => absurd he (List.not_mem_nil e)⟩
  | cons a as ih =>
    intro init
    simp only [List.foldl_cons]
    by_cases h : init.1 < a.2.1
    · rw [if_pos h]
      refine ⟨le_trans (Nat.le_of_lt h) (ih a.2).1, ?_⟩
      intro e he
      rcases List.mem_cons.mp he with rfl | he'
      · exact (ih e.2).1
      · exact (ih a.2).2 e he'
    · rw [if_neg h]
      refine ⟨(ih init).1, ?_⟩
      intro e he
      rcases List.mem_cons.mp he with rfl | he'
      · exact le_trans (Nat.le_of_not_lt h) (ih init).1
      · exact (ih init).2 e he'

theorem dominant_fold_cases (l : JsMap (Nat × Nat × Nat) (Nat × RgbColor)) :
    ∀ init : Nat × RgbColor,
      (l.foldl (fun acc e => if acc.1 < e.2.1 then e.2 else acc) init) = init ∨
      ∃ e ∈ l, (l.foldl (fun acc e => if acc.1 < e.2.1 then e.2 else acc) init) = e.2 := by
  induction l with
  | nil => intro init; exact Or.inl rfl
  | cons a as ih =>
    intro init
    simp only [List.foldl_cons]
    by_cases h : init.1 < a.2.1
    · rw [if_pos h]
      rcases ih a.2 with heq | ⟨e, he, heq⟩
      · exact Or.inr ⟨a, List.mem_cons_self _ _, heq⟩
      · exact Or.inr ⟨e, List.mem_cons_of_mem _ he, heq⟩
    · rw [if_neg h]
      rcases ih init with heq | ⟨e, he, heq⟩
      · exact Or.inl heq
      · exact Or.inr ⟨e, List.mem_cons_of_mem _ he, heq⟩

theorem mem_of_get_eq_some {α β : Type} [DecidableEq α] (m : JsMap α β) (k : α) (v : β)
    (h : m.get k = some v) : (k, v) ∈ m := by
  induction m with
  | nil => cases h
  | cons e es ih =>
    by_cases he : e.1 = k
    · simp only [JsMap.get, if_pos he] at h
      rcases Option.some_injective _ h with rfl
      exact List.mem_cons.mpr (Or.inl (by rw [← he]))
    · simp only [JsMap.get, if_neg he] at h
      exact List.mem_cons_of_mem _ (ih h)

theorem samplePixel_eq_none (img : RawImage) (acc : JsMap (Nat × Nat × Nat) (Nat × RgbColor))
    (a : Nat × Nat) (hget : acc.get (sampleKey img a) = none) :
    samplePixel img acc a = acc.set (sampleKey img a) (1, keyColor (sampleKey img a)) := by
  show (match acc.get (sampleKey img a) with
    | some entry => acc.set (sampleKey img a) (entry.1 + 1, entry.2)
    | none => acc.set (sampleKey img a) (1, keyColor (sampleKey img a))) = _
  rw [hget]

theorem samplePixel_eq_some (img : RawImage) (acc : JsMap (Nat × Nat × Nat) (Nat × RgbColor))
    (a : Nat × Nat) (entry : Nat × RgbColor) (hget : acc.get (sampleKey img a) = some entry) :
    samplePixel img acc a = acc.set (sampleKey img a) (entry.1 + 1, entry.2) := by
  show (match acc.get (sampleKey img a) with
    | some entry => acc.set (sampleKey img a) (entry.1 + 1, entry.2)
    | none => acc.set (sampleKey img a) (1, keyColor (sampleKey img a))) = _
  rw [hget]

theorem counts_keysNodup (img : RawImage) (samples : List (Nat × Nat)) :
    (samples.foldl (samplePixel img) []).KeysNodup := by
  suffices h : ∀ (acc : JsMap (Nat × Nat × Nat) (Nat × RgbColor)), acc.KeysNodup →
      (samples.foldl (samplePixel img) acc).KeysNodup by
    exact h [] (by simp [JsMap.KeysNodup])
  induction samples with
  | nil => intro acc hacc; exact hacc
  | cons a as ih =>
    intro acc hacc
    simp only [List.foldl_cons]
    apply ih
    cases hget : acc.get (sampleKey img a) with
    | none =>
      rw [samplePixel_eq_none img acc a hget]
      exact JsMap.keysNodup_set _ _ _ hacc
    | some entry =>
      rw [samplePixel_eq_some img acc a entry hget]
      exact JsMap.keysNodup_set _ _ _ hacc

theorem counts_inv (img : RawImage) (done : List (Nat × Nat)) (k : Nat × Nat × Nat) :
    (done.foldl (samplePixel img) []).get k =
      (if done.countP (fun xy => decide (sampleKey img xy = k)) = 0 then none
       else some (done.countP (fun xy => decide (sampleKey img xy = k)), keyColor k)) := by
  induction done using List.reverseRecOn with
  | nil => simp [JsMap.get]
  | append_singleton done a ih =>
    rw [List.foldl_append, List.foldl_cons, List.foldl_nil, List.countP_append]
    by_cases hk : sampleKey img a = k
    · have hc : (List.countP (fun xy => decide (sampleKey img xy = k)) [a]) = 1 := by
        simp [List.countP_cons, hk]
      rw [hc]
      by_cases h0 : done.countP (fun xy => decide (sampleKey img xy = k)) = 0
      · have hget : (done.foldl (samplePixel img) []).get (sampleKey img a) = none := by
          rw [hk, ih, if_pos h0]
        rw [samplePixel_eq_none img _ a hget, hk, JsMap.get_set_self,
          if_neg (by omega), h0]
      · have hget : (done.foldl (samplePixel img) []).get (sampleKey img a) =
            some (done.countP (fun xy => decide (sampleKey img xy = k)), keyColor k) := by
          rw [hk, ih, if_neg h0]
        rw [samplePixel_eq_some img _ a _ hget, hk, JsMap.get_set_self,
          if_neg (by omega)]
    · have hc : (List.countP (fun xy => decide (sampleKey img xy = k)) [a]) = 0 := by
        simp [List.countP_cons, hk]
      rw [hc, Nat.add_zero]
      cases hget : (done.foldl (samplePixel img) []).get (sampleKey img a) with
      | none =>
        rw [samplePixel_eq_none img _ a hget, JsMap.get_set_ne _ _ _ _ hk]
        exact ih
      | some entry =>
        rw [samplePixel_eq_some img _ a entry hget, JsMap.get_set_ne _ _ _ _ hk]
        exact ih

theorem countP_key_eq_sampleCount (img : RawImage) (k : Nat × Nat × Nat) :
    (edgeSamples img).countP (fun xy => decide (sampleKey img xy = k)) =
      sampleCount img (keyColor k) := by
  unfold sampleCount
  apply List.countP_congr
  intro xy _
  simp [sampleKey_eq_iff]

theorem counts_get_color (img : RawImage) (c : RgbColor) (h : 0 < sampleCount img c) :
    ((edgeSamples img).foldl (samplePixel img) []).get (c.r, c.g, c.b) =
      some (sampleCount img c, c) := by
  have hkc : keyColor (c.r, c.g, c.b) = c := rfl
  rw [counts_inv]
  rw [countP_key_eq_sampleCount, hkc]
  rw [if_neg (by omega)]

theorem detectEdgeColor_spec (img : RawImage) :
    (detectEdgeColor img = ⟨255, 255, 255⟩ ∨
      ∃ xy ∈ edgeSamples img, detectEdgeColor img = sampleColor img xy.1 xy.2) ∧
    ∀ c : RgbColor, sampleCount img c ≤ sampleCount img (detectEdgeColor img) := by
  have hentry : ∀ e ∈ (edgeSamples img).foldl (samplePixel img) [],
      e.2.2 = keyColor e.1 ∧ e.2.1 = sampleCount img (keyColor e.1) ∧ 0 < e.2.1 := by
    intro e he
    have hget := JsMap.get_of_mem _ e (counts_keysNodup img (edgeSamples img)) he
    rw [counts_inv] at hget
    by_cases h0 : (edgeSamples img).countP (fun xy => decide (sampleKey img xy = e.1)) = 0
    · rw [if_pos h0] at hget; cases hget
    · rw [if_neg h0] at hget
      have he2 := (Option.some_injective _ hget).symm
      rw [he2]
      refine ⟨rfl, by rw [countP_key_eq_sampleCount], ?_⟩
      show 0 < (edgeSamples img).countP (fun xy => decide (sampleKey img xy = e.1))
      omega
  rcases dominant_fold_cases ((edgeSamples img).foldl (samplePixel img) [])
      (0, ⟨255, 255, 255⟩) with hres | ⟨e, he, hres⟩
  · constructor
    · left
      unfold detectEdgeColor selectDominant
      rw [hres]
    · intro c
      by_cases hc : sampleCount img c = 0
      · rw [hc]; exact Nat.zero_le _
      · exfalso
        have hget := counts_get_color img c (by omega)
        have hmem := mem_of_get_eq_some _ _ _ hget
        have hge := (dominant_fold_ge ((edgeSamples img).foldl (samplePixel img) [])
          (0, ⟨255, 255, 255⟩)).2 _ hmem
        rw [hres] at hge
        have hge' : sampleCount img c ≤ 0 := hge
        omega
  · have hprops := hentry e he
    have hdet : detectEdgeColor img = keyColor e.1 := by
      unfold detectEdgeColor selectDominant
      rw [hres, hprops.1]
    constructor
    · right
      have hcpos : 0 < (edgeSamples img).countP
          (fun xy => decide (sampleKey img xy = e.1)) := by
        rw [countP_key_eq_sampleCount, ← hprops.2.1]
        exact hprops.2.2
      obtain ⟨xy, hxy, hkxy⟩ := List.countP_pos_iff.mp hcpos
      refine ⟨xy, hxy, ?_⟩
      rw [hdet]
      exact ((sampleKey_eq_iff img xy e.1).mp (by simpa using hkxy)).symm
    · intro c
      rw [hdet, ← hprops.2.1]
      by_cases hc : sampleCount img c = 0
      · rw [hc]; exact Nat.zero_le _
      · have hget := counts_get_color img c (by omega)
        have hmem := mem_of_get_eq_some _ _ _ hget
        have hge := (dominant_fold_ge ((edgeSamples img).foldl (samplePixel img) [])
          (0, ⟨255, 255, 255⟩)).2 _ hmem
        rw [hres] at hge
        exact hge

/-! ### Lemmas about the `contain` fit -/

theorem containDims_case1 (w h tw th : Nat) (hc : h * tw ≤ w * th) :
    containDims w h tw th = (tw, roundDiv (h * tw) w) := by
  unfold containDims
  rw [if_pos hc]

theorem containDims_case2 (w h tw th : Nat) (hc : ¬ h * tw ≤ w * th) :
    containDims w h tw th = (roundDiv (w * th) h, th) := by
  unfold containDims
  rw [if_neg hc]

theorem lt_div_succ_mul (a b : Nat) (hb : 0 < b) : a < (a / b + 1) * b := by
  have h1 := Nat.div_add_mod a b
  have h2 := Nat.mod_lt a hb
  have e : (a / b + 1) * b = b * (a / b) + b := by ring
  omega

theorem roundDiv_le (a w bound : Nat) (hw : 0 < w) (hab : a ≤ w * bound) :
    roundDiv a w ≤ bound := by
  unfold roundDiv
  rw [← Nat.lt_succ_iff, Nat.div_lt_iff_lt_mul (by omega)]
  have e : (bound + 1) * (2 * w) = 2 * (w * bound) + 2 * w := by ring
  have h2 : 2 * a ≤ 2 * (w * bound) := by omega
  rw [Nat.succ_eq_add_one, e]
  omega

theorem containDims_le (w h tw th : Nat) (hw : 0 < w) (hh : 0 < h) :
    (containDims w h tw th).1 ≤ tw ∧ (containDims w h tw th).2 ≤ th := by
  by_cases hc : h * tw ≤ w * th
  · rw [containDims_case1 w h tw th hc]
    exact ⟨le_refl tw, roundDiv_le _ _ _ hw hc⟩
  · rw [containDims_case2 w h tw th hc]
    exact ⟨roundDiv_le _ _ _ hh (by omega), le_refl th⟩

theorem roundDiv_bounds (a w : Nat) (hw : 0 < w) :
    2 * (roundDiv a w * w) ≤ 2 * a + w ∧ 2 * a ≤ 2 * (roundDiv a w * w) + w := by
  unfold roundDiv
  have hb : 0 < 2 * w := by omega
  have hd1 : (2 * a + w) / (2 * w) * (2 * w) ≤ 2 * a + w := Nat.div_mul_le_self _ _
  have hd2 : 2 * a + w < ((2 * a + w) / (2 * w) + 1) * (2 * w) :=
    lt_div_succ_mul (2 * a + w) (2 * w) hb
  have e1 : (2 * a + w) / (2 * w) * (2 * w) = 2 * ((2 * a + w) / (2 * w) * w) := by ring
  have e2 : ((2 * a + w) / (2 * w) + 1) * (2 * w) =
      2 * ((2 * a + w) / (2 * w) * w) + 2 * w := by ring
  constructor
  · rw [← e1]; exact hd1
  · rw [e2] at hd2; omega

theorem containDims_aspect (w h tw th : Nat) (hw : 0 < w) (hh : 0 < h) :
    2 * ((containDims w h tw th).1 * h) ≤ 2 * ((containDims w h tw th).2 * w) + max w h ∧
    2 * ((containDims w h tw th).2 * w) ≤ 2 * ((containDims w h tw th).1 * h) + max w h := by
  by_cases hc : h * tw ≤ w * th
  · rw [containDims_case1 w h tw th hc]
    have hb := roundDiv_bounds (h * tw) w hw
    have hm : w ≤ max w h := le_max_left w h
    have e3 : tw * h = h * tw := Nat.mul_comm _ _
    constructor
    · show 2 * (tw * h) ≤ 2 * (roundDiv (h * tw) w * w) + max w h
      rw [e3]
      omega
    · show 2 * (roundDiv (h * tw) w * w) ≤ 2 * (tw * h) + max w h
      rw [e3]
      omega
  · rw [containDims_case2 w h tw th hc]
    have hb := roundDiv_bounds (w * th) h hh
    have hm : h ≤ max w h := le_max_right w h
    have e3 : th * w = w * th := Nat.mul_comm _ _
    constructor
    · show 2 * (roundDiv (w * th) h * h) ≤ 2 * (th * w) + max w h
      rw [e3]
      omega
    · show 2 * (th * w) ≤ 2 * (roundDiv (w * th) h * h) + max w h
      rw [e3]
      omega

/-! ### Filesystem helpers for the image tools -/

theorem get_fsRemove_self (fs : JsMap String FileData) (p : String) :
    (fsRemove fs p).get p = none := by
  induction fs with
  | nil => rfl
  | cons e es ih =>
    unfold fsRemove at ih ⊢
    by_cases he : e.1 = p
    · simp only [List.filter_cons]
      rw [if_neg (by simp [he])]
      exact ih
    · simp only [List.filter_cons]
      rw [if_pos (by simp [he])]
      simp only [JsMap.get, if_neg he]
      exact ih

theorem string_ne_append_tmp (s : String) : s ≠ s ++ ".tmp" := by
  intro hcontra
  have h2 := congrArg String.length hcontra
  rw [String.length_append] at h2
  have h4 : String.length ".tmp" = 4 := rfl
  omega

theorem resizeImage_eq (resample : RawImage → Nat × Nat → Nat → Nat → RgbColor)
    (fs : JsMap String FileData) (inputPath outputPath : String)
    (target : ImageDimensions) (bgOverride : Option RgbColor) (fd : FileData)
    (hin : fs.get inputPath = some fd) :
    resizeImage resample fs inputPath outputPath target bgOverride =
      .ok (JsMap.set (fsRemove (JsMap.set fs (outputPath ++ ".tmp")
            (.out (resizeOutput resample fd target bgOverride))) (outputPath ++ ".tmp"))
          outputPath (.out (resizeOutput resample fd target bgOverride)),
        [.write (outputPath ++ ".tmp") (.out (resizeOutput resample fd target bgOverride)),
         .rename (outputPath ++ ".tmp") outputPath]) := by
  show (match fs.get inputPath with
    | none => (.error ("Input file not found: " ++ inputPath) :
        Except String (JsMap String FileData × List ImgEvent))
    | some fd =>
      .ok (JsMap.set (fsRemove (JsMap.set fs (outputPath ++ ".tmp")
            (.out (resizeOutput resample fd target bgOverride))) (outputPath ++ ".tmp"))
          outputPath (.out (resizeOutput resample fd target bgOverride)),
        [.write (outputPath ++ ".tmp") (.out (resizeOutput resample fd target bgOverride)),
         .rename (outputPath ++ ".tmp") outputPath])) = _
  rw [hin]

/-- C6: `resizeImage` produces a file of exactly the requested target
dimensions whose content rectangle fits entirely inside the canvas and
preserves the input's aspect ratio up to rounding (never cropping); the
canvas outside the content rectangle is the background colour, which is the
most frequent quantized sampled edge colour of the input (white when nothing
is sampled) unless an override is supplied; and the result is written to a
temporary `.tmp` file which is then renamed onto the final path, leaving no
temporary file behind. -/
theorem c6_resize_to_target (resample : RawImage → Nat × Nat → Nat → Nat → RgbColor)
    (fs : JsMap String FileData) (inputPath outputPath : String)
    (target : ImageDimensions) (bgOverride : Option RgbColor) (fd : FileData)
    (hin : fs.get inputPath = some fd)
    (hw : 0 < fd.toRaw.width) (hh : 0 < fd.toRaw.height) :
    ∃ fs' : JsMap String FileData,
      resizeImage resample fs inputPath outputPath target bgOverride =
        .ok (fs',
          [.write (outputPath ++ ".tmp")
            (.out (resizeOutput resample fd target bgOverride)),
           .rename (outputPath ++ ".tmp") outputPath]) ∧
      fs'.get outputPath = some (.out (resizeOutput resample fd target bgOverride)) ∧
      fs'.get (outputPath ++ ".tmp") = none ∧
      (resizeOutput resample fd target bgOverride).width = target.width ∧
      (resizeOutput resample fd target bgOverride).height = target.height ∧
      (resizeOutput resample fd target bgOverride).offX +
        (resizeOutput resample fd target bgOverride).contentW ≤ target.width ∧
      (resizeOutput resample fd target bgOverride).offY +
        (resizeOutput resample fd target bgOverride).contentH ≤ target.height ∧
      2 * ((resizeOutput resample fd target bgOverride).contentW * fd.toRaw.height) ≤
        2 * ((resizeOutput resample fd target bgOverride).contentH * fd.toRaw.width) +
          max fd.toRaw.width fd.toRaw.height ∧
      2 * ((resizeOutput resample fd target bgOverride).contentH * fd.toRaw.width) ≤
        2 * ((resizeOutput resample fd target bgOverride).contentW * fd.toRaw.height) +
          max fd.toRaw.width fd.toRaw.height ∧
      (resizeOutput resample fd target bgOverride).bg =
        bgOverride.getD (detectEdgeColor fd.toRaw) ∧
      (detectEdgeColor fd.toRaw = ⟨255, 255, 255⟩ ∨
        ∃ xy ∈ edgeSamples fd.toRaw,
          detectEdgeColor fd.toRaw = sampleColor fd.toRaw xy.1 xy.2) ∧
      (∀ c : RgbColor,
        sampleCount fd.toRaw c ≤ sampleCount fd.toRaw (detectEdgeColor fd.toRaw)) ∧
      (∀ x y : Nat,
        ¬((resizeOutput resample fd target bgOverride).offX ≤ x ∧
          x < (resizeOutput resample fd target bgOverride).offX +
            (resizeOutput resample fd target bgOverride).contentW ∧
          (resizeOutput resample fd target bgOverride).offY ≤ y ∧
          y < (resizeOutput resample fd target bgOverride).offY +
            (resizeOutput resample fd target bgOverride).contentH) →
        (resizeOutput resample fd target bgOverride).pix x y =
          (resizeOutput resample fd target bgOverride).bg) := by
  refine ⟨_, resizeImage_eq resample fs inputPath outputPath target bgOverride fd hin,
    JsMap.get_set_self _ _ _, ?_, rfl, rfl, ?_, ?_,
    (containDims_aspect fd.toRaw.width fd.toRaw.height target.width target.height hw hh).1,
    (containDims_aspect fd.toRaw.width fd.toRaw.height target.width target.height hw hh).2,
    ?_, (detectEdgeColor_spec fd.toRaw).1, (detectEdgeColor_spec fd.toRaw).2, ?_⟩
  · rw [JsMap.get_set_ne _ outputPath (outputPath ++ ".tmp") _
      (string_ne_append_tmp outputPath)]
    exact get_fsRemove_self _ _
  · have hcw := (containDims_le fd.toRaw.width fd.toRaw.height target.width
      target.height hw hh).1
    show (target.width -
        (containDims fd.toRaw.width fd.toRaw.height target.width target.height).1) / 2 +
      (containDims fd.toRaw.width fd.toRaw.height target.width target.height).1 ≤
        target.width
    omega
  · have hch := (containDims_le fd.toRaw.width fd.toRaw.height target.width
      target.height hw hh).2
    show (target.height -
        (containDims fd.toRaw.width fd.toRaw.height target.width target.height).2) / 2 +
      (containDims fd.toRaw.width fd.toRaw.height target.width target.height).2 ≤
        target.height
    omega
  · cases bgOverride with
    | none => rfl
    | some c => rfl
  · intro x y hout
    unfold ResizedImage.pix
    rw [if_neg hout]

/-- Witness for C6 at a concrete 2×2 input resized to 4×8 with no
override. -/
theorem c6_witness :
    ∃ fs' : JsMap String FileData,
      resizeImage (fun _ _ _ _ => ⟨0, 0, 0⟩)
          [("in.png", .raw ⟨2, 2, 3, fun _ => 10⟩)] "in.png" "out.png" ⟨4, 8⟩ none =
        .ok (fs',
          [.write ("out.png" ++ ".tmp")
            (.out (resizeOutput (fun _ _ _ _ => ⟨0, 0, 0⟩)
              (.raw ⟨2, 2, 3, fun _ => 10⟩) ⟨4, 8⟩ none)),
           .rename ("out.png" ++ ".tmp") "out.png"]) ∧
      fs'.get "out.png" = some (.out (resizeOutput (fun _ _ _ _ => ⟨0, 0, 0⟩)
        (.raw ⟨2, 2, 3, fun _ => 10⟩) ⟨4, 8⟩ none)) ∧
      fs'.get ("out.png" ++ ".tmp") = none ∧
      (resizeOutput (fun _ _ _ _ => ⟨0, 0, 0⟩)
        (.raw ⟨2, 2, 3, fun _ => 10⟩) ⟨4, 8⟩ none).width = (4 : Nat) := by
  obtain ⟨fs', h1, h2, h3, h4, _⟩ := c6_resize_to_target (fun _ _ _ _ => ⟨0, 0, 0⟩)
    [("in.png", .raw ⟨2, 2, 3, fun _ => 10⟩)] "in.png" "out.png" ⟨4, 8⟩ none
    (.raw ⟨2, 2, 3, fun _ => 10⟩) rfl (by decide) (by decide)
  exact ⟨fs', h1, h2, h3, h4⟩

theorem getImageDimensions_eq (fs : JsMap String FileData) (p : String) (fd : FileData)
    (h : fs.get p = some fd) (hw : 0 < fd.dims.width) (hh : 0 < fd.dims.height) :
    getImageDimensions fs p = .ok fd.dims := by
  show (match fs.get p with
    | none => (.error ("Unable to read dimensions from " ++ p) :
        Except String ImageDimensions)
    | some fd =>
      if fd.dims.width = 0 ∨ fd.dims.height = 0 then
        .error ("Unable to read dimensions from " ++ p)
      else .ok fd.dims) = _
  rw [h]
  show (if fd.dims.width = 0 ∨ fd.dims.height = 0 then
      Except.error ("Unable to read dimensions from " ++ p)
    else Except.ok fd.dims) = _
  rw [if_neg (by omega)]

theorem imageDimensions_eq_iff (d1 d2 : ImageDimensions) :
    d1 = d2 ↔ d1.width = d2.width ∧ d1.height = d2.height := by
  constructor
  · intro h
    rw [h]
    exact ⟨rfl, rfl⟩
  · rintro ⟨h1, h2⟩
    cases d1
    cases d2
    simp only [] at h1 h2
    rw [h1, h2]

/-- C7: `validateAndResizeImage` compares the translated file's dimensions to
the source file's dimensions; when they are equal it reports
`resized = false` and performs no filesystem change at all (the file stays
byte-for-byte identical), and when they differ it resizes the translated file
in place onto the source dimensions (not a fixed constant) and reports
`resized = true`; in both cases `finalDimensions` is the source
dimensions. -/
theorem c7_validate_resize (resample : RawImage → Nat × Nat → Nat → Nat → RgbColor)
    (fs : JsMap String FileData) (sourcePath translatedPath : String)
    (sfd tfd : FileData)
    (hs : fs.get sourcePath = some sfd) (ht : fs.get translatedPath = some tfd)
    (hsw : 0 < sfd.dims.width) (hsh : 0 < sfd.dims.height)
    (htw : 0 < tfd.dims.width) (hth : 0 < tfd.dims.height) :
    (sfd.dims = tfd.dims →
      validateAndResizeImage resample fs sourcePath translatedPath =
        .ok (⟨false, sfd.dims, tfd.dims, sfd.dims⟩, fs, [])) ∧
    (sfd.dims ≠ tfd.dims →
      ∃ (fs' : JsMap String FileData) (evs : List ImgEvent),
        validateAndResizeImage resample fs sourcePath translatedPath =
          .ok (⟨true, sfd.dims, tfd.dims, sfd.dims⟩, fs', evs) ∧
        (fs'.get translatedPath).map FileData.dims = some sfd.dims) := by
  have hgs := getImageDimensions_eq fs sourcePath sfd hs hsw hsh
  have hgt := getImageDimensions_eq fs translatedPath tfd ht htw hth
  constructor
  · intro heq
    have hcond : ¬(sfd.dims.width ≠ tfd.dims.width ∨ sfd.dims.height ≠ tfd.dims.height) := by
      rw [heq]
      simp
    simp only [validateAndResizeImage, hgs, hgt]
    rw [if_neg hcond]
  · intro hne
    have hcond : sfd.dims.width ≠ tfd.dims.width ∨ sfd.dims.height ≠ tfd.dims.height := by
      by_contra hc
      push_neg at hc
      exact hne ((imageDimensions_eq_iff sfd.dims tfd.dims).mpr ⟨hc.1, hc.2⟩)
    have hres := resizeImage_eq resample fs translatedPath translatedPath sfd.dims none tfd ht
    simp only [validateAndResizeImage, hgs, hgt]
    rw [if_pos hcond, hres]
    refine ⟨_, _, rfl, ?_⟩
    rw [JsMap.get_set_self]
    rfl

/-- Witness for C7: a translated file already at the source's dimensions is
left untouched with `resized = false`. -/
theorem c7_witness :
    validateAndResizeImage (fun _ _ _ _ => ⟨0, 0, 0⟩)
        [("s.png", .raw ⟨2, 2, 3, fun _ => 0⟩), ("t.png", .raw ⟨2, 2, 3, fun _ => 0⟩)]
        "s.png" "t.png" =
      .ok (⟨false, ⟨2, 2⟩, ⟨2, 2⟩, ⟨2, 2⟩⟩,
        [("s.png", .raw ⟨2, 2, 3, fun _ => 0⟩), ("t.png", .raw ⟨2, 2, 3, fun _ => 0⟩)],
        []) :=
  (c7_validate_resize (fun _ _ _ _ => ⟨0, 0, 0⟩)
    [("s.png", .raw ⟨2, 2, 3, fun _ => 0⟩), ("t.png", .raw ⟨2, 2, 3, fun _ => 0⟩)]
    "s.png" "t.png" (.raw ⟨2, 2, 3, fun _ => 0⟩) (.raw ⟨2, 2, 3, fun _ => 0⟩)
    rfl rfl (by decide) (by decide) (by decide) (by decide)).1 rfl

end Pabal
